import Mathlib

/-!
Verification of the flashcard program `gflashcard.c` against its
natural-language specification.  The C data model and operations are
shallowly embedded: C strings (`char *`, nullable) become `Option (List Char)`,
C `int` becomes `Int`, the `double` accuracy field is taken at exact rational
value, `time_t` values are epoch seconds as `Nat`, and the singly linked list
of records (behind the sentinel head) becomes a `List`.  The `gmtime`/`mktime`
one-month advance used by `fix_flashcard` is abstracted as a function
parameter `addMonth : Nat → Nat`.
-/

set_option maxRecDepth 8192

namespace GF

/-- Character list standing for a C string (`char *`) contents. -/
abbrev Str := List Char

/-- The flashcard record, from `struct flashcard_tag`: comment, question and
answer are nullable strings; `nquiz` (review count) and `n_contin_right`
(streak of consecutive right answers) are C ints; `right_rate` is the accuracy
percentage (a C double, modelled at exact rational value); `prev_time` and
`next_time` are the last/next review times in epoch seconds. -/
structure Flashcard where
  comment : Option Str
  question : Option Str
  answer : Option Str
  nquiz : Int
  n_contin_right : Int
  right_rate : ℚ
  prev_time : Nat
  next_time : Nat
deriving DecidableEq

/-- `#define N_LONG_TERM_MEMORY 10`. -/
def N_LONG_TERM_MEMORY : Int := 10

/-- `create_flashcard`: all text fields NULL, all numeric fields zero. -/
def create_flashcard : Flashcard :=
  ⟨none, none, none, 0, 0, 0, 0, 0⟩

/-- `is_long_term_memory`: the record has graduated,
`fc->n_contin_right >= N_LONG_TERM_MEMORY`. -/
def is_long_term_memory (fc : Flashcard) : Bool :=
  decide (N_LONG_TERM_MEMORY ≤ fc.n_contin_right)

/-- `is_front_flashcard(fc1, fc2, cmp_time)`: whether `fc1` is inserted in
front of `fc2`.  A literal transcription of the C expression, a plain
disjunction of the three clauses. -/
def is_front_flashcard (fc1 fc2 : Flashcard) (cmp_time : Bool) : Bool :=
  (cmp_time && decide (fc1.next_time < fc2.next_time))
  || (!is_long_term_memory fc1 && !is_long_term_memory fc2
      && decide (fc1.n_contin_right < fc2.n_contin_right))
  || decide (fc1.right_rate < fc2.right_rate)

/-- `add_flashcard(node, list, cur_time)`: splice `node` in front of the first
element for which `is_front_flashcard` holds, with
`cmp_time = (cur_time > node->next_time)`; append at the end otherwise. -/
def add_flashcard (node : Flashcard) (cur_time : Nat) :
    List Flashcard → List Flashcard
  | [] => [node]
  | p :: ps =>
      if is_front_flashcard node p (decide (cur_time > node.next_time)) then
        node :: p :: ps
      else
        p :: add_flashcard node cur_time ps

/-- `sort_flashcard(list)`: extract each element in current order and reinsert
it into a fresh empty list via `add_flashcard`, using the current time as the
ordering reference. -/
def sort_flashcard (cur_time : Nat) (cards : List Flashcard) : List Flashcard :=
  cards.foldl (fun acc p => add_flashcard p cur_time acc) []

/-- `update_statistics(fc, right)`: bump the review count, extend or reset the
streak, and fold the judgment into the running accuracy, with `n` the review
count before the update. -/
def update_statistics (fc : Flashcard) (right : Bool) : Flashcard :=
  let rate : ℚ := fc.right_rate
  let n : ℚ := (fc.nquiz : ℚ)
  { fc with
    nquiz := fc.nquiz + 1
    n_contin_right := if right then fc.n_contin_right + 1 else 0
    right_rate :=
      if right then (rate * n + 100) / (n + 1)
      else if 0 < rate then (rate * n - 100) / (n + 1)
      else 0 }

/-- The two statistics-display formats of `show_statistics`:
`headerTotal` is the aggregate wording (total questions reviewed and accuracy,
no streak) and `perCard` is the per-card wording (review count, streak and
accuracy). -/
inductive Wording where
  | headerTotal
  | perCard
deriving DecidableEq

/-- `show_statistics(fc)`: the C computes `bool is_head = fc->question;`
(true iff the question pointer is non-NULL) and prints the aggregate wording
when `is_head` holds, the per-card wording otherwise. -/
def show_statistics (fc : Flashcard) : Wording :=
  if fc.question.isSome then Wording.headerTotal else Wording.perCard

/-- The review loop of `quiz(list)`, starting at the `k`-th judgment of the
judgment stream `js`: graduated records are skipped untouched; every other
record is shown, judged with the next judgment, updated via
`update_statistics`, and the same judgment is folded into the header record.
Returns the final header, the final card list, and the list of records that
were shown (in visit order, pre-update). -/
def quiz_run (js : Nat → Bool) :
    Nat → Flashcard → List Flashcard → Flashcard × List Flashcard × List Flashcard
  | _, hdr, [] => (hdr, [], [])
  | k, hdr, p :: ps =>
      if is_long_term_memory p then
        let r := quiz_run js k hdr ps
        (r.1, p :: r.2.1, r.2.2)
      else
        let r := quiz_run js (k + 1) (update_statistics hdr (js k)) ps
        (r.1, update_statistics p (js k) :: r.2.1, p :: r.2.2)

/-- A whole review session over a loaded collection. -/
def quiz (js : Nat → Bool) (hdr : Flashcard) (cards : List Flashcard) :
    Flashcard × List Flashcard × List Flashcard :=
  quiz_run js 0 hdr cards

/-! ## Text codec

The line-oriented parser `load_flashcard` and the writer `update_data_file`.
Input is modelled as the character list of the file; `toLines` reproduces the
`fgets` splitting into newline-terminated lines (the `LINE_MAX` truncation of
overlong lines is not modelled).  A `none` result marks C undefined behavior:
dereferencing the NULL card pointer (`fc`) on an out-of-place line, splicing
an already-inserted node a second time on a duplicate `<<` (which corrupts
the linked list into a cycle), or `fputs(NULL)` when serializing. -/

/-- `isspace` of the C locale. -/
def isSpaceC (c : Char) : Bool :=
  c = ' ' || c = '\t' || c = '\n' || c = '\r' || c = '\x0b' || c = '\x0c'

/-- ASCII digit test. -/
def isDigitC (c : Char) : Bool := '0' ≤ c && c ≤ '9'

/-- Numeric value of an ASCII digit. -/
def digitVal (c : Char) : Nat := c.toNat - 48

/-- Greedy digit run of an `sscanf` integer conversion. -/
def scanNat : Str → Nat → Nat × Str
  | [], acc => (acc, [])
  | c :: cs, acc =>
      if isDigitC c then scanNat cs (10 * acc + digitVal c) else (acc, c :: cs)

/-- Optional sign followed by at least one digit (the body of `%d`, and of a
float exponent). -/
def scanSignDigits : Str → Option (Int × Str)
  | '-' :: c :: cs =>
      if isDigitC c then
        some (-(Int.ofNat (scanNat cs (digitVal c)).1), (scanNat cs (digitVal c)).2)
      else none
  | '+' :: c :: cs =>
      if isDigitC c then
        some (Int.ofNat (scanNat cs (digitVal c)).1, (scanNat cs (digitVal c)).2)
      else none
  | c :: cs =>
      if isDigitC c then
        some (Int.ofNat (scanNat cs (digitVal c)).1, (scanNat cs (digitVal c)).2)
      else none
  | [] => none

/-- `sscanf` `%d`: skip whitespace, then sign and digits. -/
def scanIntTok (s : Str) : Option (Int × Str) :=
  scanSignDigits (s.dropWhile isSpaceC)

/-- Fraction digits after the decimal point, with the current scale. -/
def scanFracAux : Str → ℚ → ℚ → ℚ × Str
  | [], acc, _ => (acc, [])
  | c :: cs, acc, sc =>
      if isDigitC c then scanFracAux cs (acc + (digitVal c : ℚ) * sc) (sc / 10)
      else (acc, c :: cs)

/-- `10^e` over ℚ for a signed exponent. -/
def pow10 (e : Int) : ℚ :=
  if 0 ≤ e then (10 : ℚ) ^ e.toNat else ((10 : ℚ) ^ (-e).toNat)⁻¹

/-- Optional exponent part after the mantissa of `%lf`; consumed only when a
well-formed exponent follows, as in `strtod`. -/
def scanAfterMantissa (v : ℚ) (r : Str) : ℚ × Str :=
  if r.head? = some 'e' ∨ r.head? = some 'E' then
    match scanSignDigits r.tail with
    | some (e, r2) => (v * pow10 e, r2)
    | none => (v, r)
  else (v, r)

/-- Unsigned `%lf` mantissa: digits, optional point and fraction digits, with
at least one digit overall, then an optional exponent.  (The `inf`/`nan` and
hexadecimal forms accepted by `strtod` are not modelled.) -/
def scanUFloat (s : Str) : Option (ℚ × Str) :=
  match s with
  | [] => none
  | c :: cs =>
      if isDigitC c then
        let p := scanNat cs (digitVal c)
        if p.2.head? = some '.' then
          let f := scanFracAux p.2.tail (p.1 : ℚ) (1 / 10)
          some (scanAfterMantissa f.1 f.2)
        else some (scanAfterMantissa (p.1 : ℚ) p.2)
      else if c = '.' then
        match cs with
        | [] => none
        | d :: ds =>
            if isDigitC d then
              let f := scanFracAux ds ((digitVal d : ℚ) / 10) (1 / 100)
              some (scanAfterMantissa f.1 f.2)
            else none
      else none

/-- A remainder that stops a float token: its first character, if any, can
continue neither the digit run, the fraction, nor an exponent. -/
def TokStop (r : Str) : Prop :=
  ∀ c, r.head? = some c →
    isDigitC c = false ∧ c ≠ '.' ∧ c ≠ 'e' ∧ c ≠ 'E'

/-- `sscanf` `%lf`: skip whitespace, optional sign, unsigned float. -/
def scanFloatTok (s : Str) : Option (ℚ × Str) :=
  match s.dropWhile isSpaceC with
  | '-' :: rest => (scanUFloat rest).map (fun p => (-p.1, p.2))
  | '+' :: rest => scanUFloat rest
  | rest => scanUFloat rest

/-- `cat_string(dst, src)`: append, treating a NULL destination as empty. -/
def cat_string (dst : Option Str) (src : Str) : Str := dst.getD [] ++ src

/-- `load_info(fc, input)`: `sscanf(input, "%d %d %lf", ...)` with the partial
assignment semantics of `sscanf` (a failed conversion leaves that field and
the following ones at their previous values), then stamp `prev_time` with the
current time. -/
def load_info (t : Nat) (fc : Flashcard) (input : Str) : Flashcard :=
  match scanIntTok input with
  | none => { fc with prev_time := t }
  | some (a, r1) =>
      match scanIntTok r1 with
      | none => { fc with nquiz := a, prev_time := t }
      | some (b, r2) =>
          match scanFloatTok r2 with
          | none => { fc with nquiz := a, n_contin_right := b, prev_time := t }
          | some (c, _) =>
              { fc with
                nquiz := a
                n_contin_right := b
                right_rate := c
                prev_time := t }

/-- `fix_flashcard(fc)`: default missing text fields (comment to `""`,
question and answer to `"\n"`), stamp a zero `prev_time` with the current
time, and set `next_time` one calendar month later; the `gmtime`/`mktime`
month advance is the abstracted `addMonth`. -/
def fix_flashcard (addMonth : Nat → Nat) (t : Nat) (fc : Flashcard) : Flashcard :=
  let pv := if fc.prev_time = 0 then t else fc.prev_time
  { fc with
    comment := some (fc.comment.getD [])
    question := some (fc.question.getD ['\n'])
    answer := some (fc.answer.getD ['\n'])
    prev_time := pv
    next_time := addMonth pv }

/-- `line[0] == '#'`. -/
def startsHash : Str → Bool
  | c :: _ => c = '#'
  | [] => false

/-- `line[0] == a && line[1] == b` (safe in C because of the terminator). -/
def starts2 (a b : Char) : Str → Bool
  | x :: y :: _ => x = a && y = b
  | _ => false

/-- The `stage` enumeration of `load_flashcard`. -/
inductive Stage where
  | question
  | answer
  | statistics
  | ignore
deriving DecidableEq

/-- The `fc` pointer of `load_flashcard`: NULL, a fresh record not yet in the
list, or an alias of the record inserted under the given tag (the pointer
keeps aiming at the record after `add_flashcard` splices it in). -/
inductive FcRef where
  | null
  | fresh (fc : Flashcard)
  | added (id : Nat)
deriving DecidableEq

/-- The loop state of `load_flashcard`: the stage, the `fc` pointer, the
sentinel's comment (`list->comment`), the inserted records (each with the tag
identifying it for aliasing), and the next fresh tag. -/
structure PState where
  stage : Stage
  fc : FcRef
  hcomment : Option Str
  cards : List (Nat × Flashcard)
  nextId : Nat
deriving DecidableEq

/-- The state at the top of `load_flashcard`. -/
def initPState : PState := ⟨Stage.ignore, FcRef.null, none, [], 0⟩

/-- `add_flashcard` on the tagged list (the position depends only on the
records, not the tags). -/
def add_tagged (node : Nat × Flashcard) (cur_time : Nat) :
    List (Nat × Flashcard) → List (Nat × Flashcard)
  | [] => [node]
  | p :: ps =>
      if is_front_flashcard node.2 p.2 (decide (cur_time > node.2.next_time)) then
        node :: p :: ps
      else
        p :: add_tagged node cur_time ps

/-- Write through the alias: update the record carrying the tag. -/
def upd_card (id : Nat) (f : Flashcard → Flashcard)
    (cards : List (Nat × Flashcard)) : List (Nat × Flashcard) :=
  cards.map fun p => if p.1 = id then (p.1, f p.2) else p

/-- Write through the `fc` pointer; NULL is a crash (`none`). -/
def mutate_fc (st : PState) (f : Flashcard → Flashcard) : Option PState :=
  match st.fc with
  | FcRef.null => none
  | FcRef.fresh c => some { st with fc := FcRef.fresh (f c) }
  | FcRef.added id => some { st with cards := upd_card id f st.cards }

/-- One iteration of the `load_flashcard` loop, the C `else if` chain in
order.  `none` marks undefined behavior: a NULL `fc` dereference, or a second
`<<` for a record already in the list (`add_flashcard` would splice the node
onto itself and corrupt the list). -/
def parseLine (addMonth : Nat → Nat) (t : Nat) (st : PState) (line : Str) :
    Option PState :=
  if startsHash line && st.cards.isEmpty then
    some { st with hcomment := some (cat_string st.hcomment line) }
  else if starts2 '>' '>' line then
    some { st with fc := FcRef.fresh create_flashcard }
  else if startsHash line then
    mutate_fc st fun c => { c with comment := some (cat_string c.comment line) }
  else if starts2 'Q' ':' line then
    some { st with stage := Stage.question }
  else if starts2 'A' ':' line then
    some { st with stage := Stage.answer }
  else if starts2 'S' ':' line then
    some { st with stage := Stage.statistics }
  else if starts2 '<' '<' line then
    match st.fc with
    | FcRef.null => none
    | FcRef.fresh c =>
        some { st with
          stage := Stage.ignore
          fc := FcRef.added st.nextId
          cards := add_tagged (st.nextId, fix_flashcard addMonth t c) t st.cards
          nextId := st.nextId + 1 }
    | FcRef.added _ => none
  else if st.stage = Stage.question then
    mutate_fc st fun c => { c with question := some (cat_string c.question line) }
  else if st.stage = Stage.answer then
    mutate_fc st fun c => { c with answer := some (cat_string c.answer line) }
  else if st.stage = Stage.statistics then
    mutate_fc st fun c => load_info t c line
  else
    some st

/-- The `fgets` loop. -/
def runP (addMonth : Nat → Nat) (t : Nat) : PState → List Str → Option PState
  | st, [] => some st
  | st, l :: ls =>
      match parseLine addMonth t st l with
      | none => none
      | some st' => runP addMonth t st' ls

/-- Split into newline-terminated lines; a trailing chunk without a newline is
kept as a final line, as `fgets` would return it. -/
def splitL : Str → Str → List Str
  | [], acc => if acc.isEmpty then [] else [acc.reverse]
  | c :: cs, acc =>
      if c = '\n' then (acc.reverse ++ ['\n']) :: splitL cs []
      else splitL cs (c :: acc)

/-- The lines `fgets` yields for the file contents. -/
def toLines (s : Str) : List Str := splitL s []

/-- The collection a parse produces: the sentinel header (holding the file
comment) and the inserted records in list order. -/
structure ParseResult where
  header : Flashcard
  cards : List Flashcard
deriving DecidableEq

/-- `load_flashcard(filename)` on the file contents. -/
def load_flashcard (addMonth : Nat → Nat) (t : Nat) (input : Str) :
    Option ParseResult :=
  (runP addMonth t initPState (toLines input)).map fun st =>
    ⟨{ create_flashcard with comment := st.hcomment }, st.cards.map Prod.snd⟩

/-- Decimal digits of a natural number, most significant first; the fuel is
structural and one unit more than enough. -/
def natCharsAux : Nat → Nat → Str → Str
  | 0, _, acc => acc
  | fuel + 1, n, acc =>
      if n < 10 then Char.ofNat (48 + n) :: acc
      else natCharsAux fuel (n / 10) (Char.ofNat (48 + n % 10) :: acc)

/-- `printf` `%lu`-style digits of a natural number. -/
def natChars (n : Nat) : Str := natCharsAux (n + 1) n []

/-- `printf` `%d`. -/
def intChars (z : Int) : Str :=
  if z < 0 then '-' :: natChars (-z).toNat else natChars z.toNat

/-- Number of decimal digits. -/
def numDigits (n : Nat) : Nat := (natChars n).length

/-- Decimal exponent of a positive rational: the largest `e` with
`10^e ≤ a`. -/
def decExp (a : ℚ) : Int :=
  let c : Int := (numDigits a.num.natAbs : Int) - (numDigits a.den : Int)
  if pow10 (c + 1) ≤ a then c + 1 else if pow10 c ≤ a then c else c - 1

/-- Round half away from zero, for positive rationals. -/
def ratRound (q : ℚ) : Int := (2 * q.num + (q.den : Int)) / (2 * (q.den : Int))

/-- Six significant digits of a positive rational: the mantissa in
`[10^5, 10^6)` and the decimal exponent, after rounding. -/
def sig6 (a : ℚ) : Nat × Int :=
  let e := decExp a
  let m := ratRound (a * pow10 (5 - e))
  if m = 1000000 then (100000, e + 1) else (m.toNat, e)

/-- Drop trailing zero digits. -/
def stripZeros (ds : Str) : Str :=
  (ds.reverse.dropWhile fun c => c = '0').reverse

/-- The exponent digits of the `%e` style, at least two. -/
def expDigits (n : Nat) : Str :=
  if n < 10 then '0' :: natChars n else natChars n

/-- `printf` `%g` of a positive rational: six significant digits, trailing
zeros stripped, fixed style for exponents in `[-4, 5]` and scientific style
otherwise.  (`%g` prints the `double` value; the model prints the exact
rational by the same rules, rounding half away from zero.) -/
def gfmtPos (a : ℚ) : Str :=
  let p := sig6 a
  let ds := stripZeros (natChars p.1)
  let e := p.2
  if -4 ≤ e ∧ e < 6 then
    if 0 ≤ e then
      let il := (e + 1).toNat
      if ds.length ≤ il then ds ++ List.replicate (il - ds.length) '0'
      else ds.take il ++ ['.'] ++ ds.drop il
    else
      '0' :: '.' :: (List.replicate (-(e + 1)).toNat '0' ++ ds)
  else
    (match ds with
     | [] => ['0']
     | [d] => [d]
     | d :: rest => d :: '.' :: rest)
    ++ 'e' :: (if 0 ≤ e then '+' else '-') :: expDigits e.natAbs

/-- `printf` `%g`. -/
def gfmt (q : ℚ) : Str :=
  if q = 0 then ['0']
  else if q < 0 then '-' :: gfmtPos (-q) else gfmtPos q

/-- The value `%lf` reads back from a `%g`-printed accuracy: printing and
rescanning with the model's own printer and scanner. -/
def gRound (q : ℚ) : ℚ :=
  match scanFloatTok (gfmt q) with
  | some p => p.1
  | none => 0

/-- The statistics line `fprintf(fp, "    %d %d %g %lu %lu\n", ...)`. -/
def statsChars (p : Flashcard) : Str :=
  [' ', ' ', ' ', ' '] ++ intChars p.nquiz ++ [' '] ++ intChars p.n_contin_right
    ++ [' '] ++ gfmt p.right_rate ++ [' '] ++ natChars p.prev_time
    ++ [' '] ++ natChars p.next_time ++ ['\n']

/-- One record block of `update_data_file`; `none` if any of the written
fields is NULL (`fputs(NULL)` crashes). -/
def serializeCard (p : Flashcard) : Option Str :=
  match p.comment, p.question, p.answer with
  | some c, some q, some a =>
      some (['\n', '>', '>', '\n'] ++ c ++ ['Q', ':', '\n'] ++ q
        ++ ['A', ':', '\n'] ++ a ++ ['S', ':', '\n'] ++ statsChars p
        ++ ['<', '<', '\n'])
  | _, _, _ => none

/-- Input for the C9 counterexample: a header comment line, then card A
(question `qa`, streak 5) and card B (an internal comment `#b`, question
`qb`, streak 0).  B ranks in front of A, so B is serialized first and its
comment migrates into the header comment on the next parse. -/
def c9input : Str :=
  ['#', 'H', '\n', '>', '>', '\n', 'Q', ':', '\n', 'q', 'a', '\n',
   'A', ':', '\n', 'a', 'a', '\n', 'S', ':', '\n', ' ', '0', ' ', '5',
   ' ', '0', '\n', '<', '<', '\n', '>', '>', '\n', '#', 'b', '\n',
   'Q', ':', '\n', 'q', 'b', '\n', 'A', ':', '\n', 'a', 'b', '\n',
   'S', ':', '\n', ' ', '0', ' ', '0', ' ', '0', '\n', '<', '<', '\n']

/-- `update_data_file(list, data_file)`: the bytes written — the header
comment followed by the record blocks in list order.  `none` if the header
comment or any record field is NULL (`fputs(NULL)` crashes). -/
def update_data_file (res : ParseResult) : Option Str :=
  match res.header.comment with
  | none => none
  | some h => (res.cards.mapM serializeCard).map fun bs => h ++ bs.flatten

/-! ## Shapes of parsed text

Predicates describing the lines `fgets` can deliver and the fields a parse
can build, and the canonical well-formed input built from blocks; used to
characterize reparsing serialized output. -/

/-- A line as `fgets` returns it from a newline-terminated file: one final
newline and none before it. -/
def NlLine (l : Str) : Prop := ∃ b, l = b ++ ['\n'] ∧ '\n' ∉ b

/-- A comment line. -/
def HashLine (l : Str) : Prop := startsHash l = true ∧ NlLine l

/-- A line that matches no marker and so lands in the active field. -/
def ContentLine (l : Str) : Prop :=
  NlLine l ∧ startsHash l = false
  ∧ starts2 '>' '>' l = false ∧ starts2 'Q' ':' l = false
  ∧ starts2 'A' ':' l = false ∧ starts2 'S' ':' l = false
  ∧ starts2 '<' '<' l = false

/-- `cat_string` folded over a list of lines. -/
def catAll (h : Option Str) : List Str → Option Str
  | [] => h
  | l :: ls => catAll (some (cat_string h l)) ls

/-- A record as a completed parse leaves it: every text field is a
concatenation of lines of the right shape (question and answer nonempty). -/
def SanCard (c : Flashcard) : Prop :=
  (∃ ls : List Str, c.comment = some ls.flatten ∧ ∀ l ∈ ls, HashLine l)
  ∧ (∃ ls : List Str, c.question = some ls.flatten ∧ ls ≠ [] ∧ ∀ l ∈ ls, ContentLine l)
  ∧ (∃ ls : List Str, c.answer = some ls.flatten ∧ ls ≠ [] ∧ ∀ l ∈ ls, ContentLine l)

/-- A record while still behind a `fresh` pointer: fields unset or built from
lines of the right shape. -/
def PreCard (c : Flashcard) : Prop :=
  (c.comment = none ∨ ∃ ls : List Str, c.comment = some ls.flatten ∧ ls ≠ [] ∧ ∀ l ∈ ls, HashLine l)
  ∧ (c.question = none ∨ ∃ ls : List Str, c.question = some ls.flatten ∧ ls ≠ [] ∧ ∀ l ∈ ls, ContentLine l)
  ∧ (c.answer = none ∨ ∃ ls : List Str, c.answer = some ls.flatten ∧ ls ≠ [] ∧ ∀ l ∈ ls, ContentLine l)

/-- The invariant of the parse loop state. -/
def InvState (st : PState) : Prop :=
  (st.hcomment = none
    ∨ ∃ ls : List Str, st.hcomment = some ls.flatten ∧ ls ≠ [] ∧ ∀ l ∈ ls, HashLine l)
  ∧ (∀ p ∈ st.cards, SanCard p.2)
  ∧ (∀ c, st.fc = FcRef.fresh c → PreCard c)

/-- The invariant of a completed parse. -/
def SanResult (r : ParseResult) : Prop :=
  (r.header.comment = none
    ∨ ∃ ls : List Str, r.header.comment = some ls.flatten ∧ ls ≠ [] ∧ ∀ l ∈ ls, HashLine l)
  ∧ ∀ c ∈ r.cards, SanCard c

/-- One well-formed card block of the data-file grammar: comment lines,
question lines, answer lines, statistics content lines. -/
structure BlockDesc where
  cl : List Str
  ql : List Str
  al : List Str
  sl : List Str
deriving DecidableEq

/-- Shape conditions on a block's lines. -/
def BlockOk (b : BlockDesc) : Prop :=
  (∀ l ∈ b.cl, HashLine l) ∧ (∀ l ∈ b.ql, ContentLine l)
  ∧ (∀ l ∈ b.al, ContentLine l) ∧ (∀ l ∈ b.sl, ContentLine l)

/-- The lines of a block: a blank line, `>>`, the comments, `Q:`, the
question, `A:`, the answer, `S:`, the statistics lines, `<<`. -/
def blockLines (b : BlockDesc) : List Str :=
  ['\n'] :: ['>', '>', '\n']
    :: (b.cl ++ ['Q', ':', '\n']
      :: (b.ql ++ ['A', ':', '\n']
        :: (b.al ++ ['S', ':', '\n']
          :: (b.sl ++ [['<', '<', '\n']]))))

/-- The record a block parses to; `migrated` tells whether the block was
parsed while the list was still empty, in which case its comment lines went
to the header instead. -/
def blockCard (am : Nat → Nat) (t : Nat) (b : BlockDesc) (migrated : Bool) :
    Flashcard :=
  fix_flashcard am t
    (b.sl.foldl (fun c l => load_info t c l)
      { create_flashcard with
        comment := if migrated then none else catAll none b.cl
        question := catAll none b.ql
        answer := catAll none b.al })

/-- The records a block list parses to, in parse order: the first block's
comment migrates. -/
def blockCards (am : Nat → Nat) (t : Nat) : List BlockDesc → List Flashcard
  | [] => []
  | b :: rest => blockCard am t b true :: rest.map fun b' => blockCard am t b' false

/-- The comment lines of the first block. -/
def headCl : List BlockDesc → List Str
  | [] => []
  | b :: _ => b.cl

/-- The comments the parsed records end up with: the first block's comment is
gone (migrated to the header), the others keep theirs. -/
def commentsSpec : List BlockDesc → List (Option Str)
  | [] => []
  | _ :: rest => some [] :: rest.map fun b => some b.cl.flatten

/-- The state change one block causes. -/
def applyBlock (am : Nat → Nat) (t : Nat) (st : PState) (b : BlockDesc) : PState :=
  ⟨Stage.ignore, FcRef.added st.nextId,
   if st.cards.isEmpty then catAll st.hcomment b.cl else st.hcomment,
   add_tagged (st.nextId, blockCard am t b st.cards.isEmpty) t st.cards,
   st.nextId + 1⟩

/-- The state change a block list causes. -/
def foldBlocks (am : Nat → Nat) (t : Nat) : PState → List BlockDesc → PState
  | st, [] => st
  | st, b :: bs => foldBlocks am t (applyBlock am t st b) bs

/-- Empty the first record's comment (it migrates into the header on
reparse). -/
def clearFirstComment : List Flashcard → List Flashcard
  | [] => []
  | c :: rest => { c with comment := some [] } :: rest

/-- The comment of the first record, if any. -/
def headComment : List Flashcard → Str
  | [] => []
  | c :: _ => c.comment.getD []

/-- How one serialize-and-reparse cycle rewrites the numeric fields of a
record: the accuracy goes through `%g` printing and `%lf` scanning, and the
review times are recomputed from the new current time. -/
def reparsedStats (am : Nat → Nat) (t : Nat) (c : Flashcard) : Flashcard :=
  { c with
    right_rate := gRound c.right_rate
    prev_time := t
    next_time := am t }

/-- A block carrying exactly the text of a sanitized record, with the
record's own statistics line. -/
def DescribesCard (b : BlockDesc) (c : Flashcard) : Prop :=
  c.comment = some b.cl.flatten ∧ c.question = some b.ql.flatten
  ∧ c.answer = some b.al.flatten ∧ b.sl = [statsChars c] ∧ BlockOk b

/-! Projection lemmas for `update_statistics`. -/

@[simp] lemma update_statistics_nquiz (fc : Flashcard) (right : Bool) :
    (update_statistics fc right).nquiz = fc.nquiz + 1 := rfl

@[simp] lemma update_statistics_streak (fc : Flashcard) (right : Bool) :
    (update_statistics fc right).n_contin_right =
      (if right then fc.n_contin_right + 1 else 0) := rfl

@[simp] lemma update_statistics_rate (fc : Flashcard) (right : Bool) :
    (update_statistics fc right).right_rate =
      (if right then (fc.right_rate * (fc.nquiz : ℚ) + 100) / ((fc.nquiz : ℚ) + 1)
       else if 0 < fc.right_rate then
         (fc.right_rate * (fc.nquiz : ℚ) - 100) / ((fc.nquiz : ℚ) + 1)
       else 0) := rfl

/-- C1 (counterexample): with reference time 10, a candidate due at 5 and an
existing record due at 3, the candidate does not have the earlier due date,
yet the comparator still answers true (through the accuracy clause), so the
first clause is not decisive as the claim states. -/
theorem c1_counterexample :
    is_front_flashcard ⟨none, none, none, 0, 0, 0, 0, 5⟩
        ⟨none, none, none, 0, 0, 50, 0, 3⟩ (decide ((10 : Nat) > 5)) = true
    ∧ (10 : Nat) > 5
    ∧ ¬ ((5 : Nat) < 3) := by decide

/-- C1 (amended): `is_front_flashcard`, with `cmp_time` computed from the
reference time as in `add_flashcard`, is the plain disjunction of the three
clauses; an earlier clause whose guard holds but whose comparison fails does
not block the later clauses. -/
theorem c1_amended (fc1 fc2 : Flashcard) (t : Nat) :
    is_front_flashcard fc1 fc2 (decide (t > fc1.next_time)) = true ↔
      ((t > fc1.next_time ∧ fc1.next_time < fc2.next_time)
       ∨ (fc1.n_contin_right < 10 ∧ fc2.n_contin_right < 10
          ∧ fc1.n_contin_right < fc2.n_contin_right)
       ∨ fc1.right_rate < fc2.right_rate) := by
  simp [is_front_flashcard, is_long_term_memory, N_LONG_TERM_MEMORY,
    Bool.or_eq_true, Bool.and_eq_true, Bool.not_eq_true', decide_eq_true_eq,
    decide_eq_false_iff_not, not_le, and_assoc, or_assoc]

/-- C2 (counterexample): a record with accuracy 50 in `[0, 100]` and review
count 1, judged incorrect, ends with accuracy `(50·1 − 100)/2 = −25 < 0`:
the update rule does not clamp the subtraction at zero. -/
theorem c2_counterexample :
    (0 : ℚ) ≤ (50 : ℚ) ∧ (50 : ℚ) ≤ 100 ∧ (0 : Int) ≤ 1
    ∧ (update_statistics ⟨none, none, none, 1, 0, 50, 0, 0⟩ false).right_rate < 0 := by
  refine ⟨by norm_num, by norm_num, by norm_num, ?_⟩
  norm_num [update_statistics]

/-- C2 (amended): for a record with accuracy in `[0, 100]`, non-negative
review count and non-negative streak, the updated accuracy is at most 100 and
at least −100, and the updated streak is non-negative; the updated accuracy is
moreover non-negative when the judgment is correct, or the prior accuracy is
zero, or `accuracy · reviewCount ≥ 100` (which covers every state reachable
from a fresh record). -/
theorem c2_amended (fc : Flashcard) (right : Bool)
    (h0 : 0 ≤ fc.right_rate) (h1 : fc.right_rate ≤ 100)
    (hn : 0 ≤ fc.nquiz) (hs : 0 ≤ fc.n_contin_right) :
    (update_statistics fc right).right_rate ≤ 100
    ∧ -100 ≤ (update_statistics fc right).right_rate
    ∧ 0 ≤ (update_statistics fc right).n_contin_right
    ∧ ((right = true ∨ fc.right_rate = 0 ∨ 100 ≤ fc.right_rate * (fc.nquiz : ℚ)) →
        0 ≤ (update_statistics fc right).right_rate) := by
  have hnq : (0 : ℚ) ≤ (fc.nquiz : ℚ) := by exact_mod_cast hn
  have hp : (0 : ℚ) < (fc.nquiz : ℚ) + 1 := by linarith
  have hmul : fc.right_rate * (fc.nquiz : ℚ) ≤ 100 * (fc.nquiz : ℚ) :=
    mul_le_mul_of_nonneg_right h1 hnq
  have hmul0 : 0 ≤ fc.right_rate * (fc.nquiz : ℚ) := mul_nonneg h0 hnq
  cases right with
  | true =>
      have hrate : (update_statistics fc true).right_rate
          = (fc.right_rate * (fc.nquiz : ℚ) + 100) / ((fc.nquiz : ℚ) + 1) := by
        simp
      have hstk : (update_statistics fc true).n_contin_right
          = fc.n_contin_right + 1 := by simp
      refine ⟨?_, ?_, ?_, fun _ => ?_⟩
      · rw [hrate, div_le_iff₀ hp]; nlinarith
      · rw [hrate]
        have h := div_nonneg (by nlinarith :
          (0 : ℚ) ≤ fc.right_rate * (fc.nquiz : ℚ) + 100) hp.le
        linarith
      · rw [hstk]; omega
      · rw [hrate]; exact div_nonneg (by nlinarith) hp.le
  | false =>
      have hstk : (update_statistics fc false).n_contin_right = 0 := by simp
      by_cases hr : 0 < fc.right_rate
      · have hrate : (update_statistics fc false).right_rate
            = (fc.right_rate * (fc.nquiz : ℚ) - 100) / ((fc.nquiz : ℚ) + 1) := by
          simp [hr]
        refine ⟨?_, ?_, ?_, ?_⟩
        · rw [hrate, div_le_iff₀ hp]; nlinarith
        · rw [hrate, le_div_iff₀ hp]; nlinarith
        · rw [hstk]
        · rintro (h | h | h)
          · exact absurd h (by simp)
          · exact absurd h (by linarith)
          · rw [hrate]
            exact div_nonneg (by linarith) hp.le
      · have hrate : (update_statistics fc false).right_rate = 0 := by
          simp [hr]
        refine ⟨?_, ?_, ?_, fun _ => ?_⟩
        · rw [hrate]; norm_num
        · rw [hrate]; norm_num
        · rw [hstk]
        · rw [hrate]

/-- C2 (witness): the amended theorem applied to the record with accuracy 80,
review count 10, streak 5, judged incorrect. -/
theorem c2_amended_witness :
    (update_statistics ⟨none, none, none, 10, 5, 80, 0, 0⟩ false).right_rate ≤ 100
    ∧ -100 ≤ (update_statistics ⟨none, none, none, 10, 5, 80, 0, 0⟩ false).right_rate
    ∧ 0 ≤ (update_statistics ⟨none, none, none, 10, 5, 80, 0, 0⟩ false).n_contin_right
    ∧ 0 ≤ (update_statistics ⟨none, none, none, 10, 5, 80, 0, 0⟩ false).right_rate := by
  have h := c2_amended ⟨none, none, none, 10, 5, 80, 0, 0⟩ false
    (by norm_num) (by norm_num) (by norm_num) (by norm_num)
  exact ⟨h.1, h.2.1, h.2.2.1, h.2.2.2 (Or.inr (Or.inr (by norm_num)))⟩

/-- C3: `update_statistics` implements exactly the claimed formulas, and on
the record with streak 5, accuracy 80, review count 10 judged incorrect it
yields review count 11, streak 0 and accuracy `(80·10 − 100)/11`. -/
theorem c3_update_formulas :
    (∀ (fc : Flashcard) (right : Bool),
      (update_statistics fc right).nquiz = fc.nquiz + 1
      ∧ (update_statistics fc right).n_contin_right =
          (if right then fc.n_contin_right + 1 else 0)
      ∧ (update_statistics fc right).right_rate =
          (if right then (fc.right_rate * (fc.nquiz : ℚ) + 100) / ((fc.nquiz : ℚ) + 1)
           else if 0 < fc.right_rate then
             (fc.right_rate * (fc.nquiz : ℚ) - 100) / ((fc.nquiz : ℚ) + 1)
           else 0))
    ∧ update_statistics ⟨none, none, none, 10, 5, 80, 0, 0⟩ false
        = ⟨none, none, none, 11, 0, (80 * 10 - 100) / 11, 0, 0⟩ := by
  refine ⟨fun fc right => ⟨rfl, rfl, rfl⟩, ?_⟩
  norm_num [update_statistics, Flashcard.mk.injEq]

/-- C5: `show_statistics` selects the aggregate header wording exactly when
the question field is set and the per-card wording exactly when it is unset —
the reverse of the claim.  The header pseudo-record (question NULL) gets the
per-card wording; a real card gets the header wording. -/
theorem c5_wording_swapped :
    show_statistics { create_flashcard with comment := some [] } = Wording.perCard
    ∧ show_statistics { create_flashcard with question := some ['q', '\n'] }
        = Wording.headerTotal :=
  ⟨rfl, rfl⟩

/-- Helper for C7: the quiz loop leaves every graduated record in place and
untouched, and visits exactly the non-graduated records in order. -/
theorem quiz_run_spec (js : Nat → Bool) :
    ∀ (cards : List Flashcard) (k : Nat) (hdr : Flashcard),
      (∀ (i : Nat) (c : Flashcard), cards[i]? = some c → is_long_term_memory c = true →
        (quiz_run js k hdr cards).2.1[i]? = some c)
      ∧ (quiz_run js k hdr cards).2.2 =
          cards.filter fun p => !is_long_term_memory p := by
  intro cards
  induction cards with
  | nil =>
      intro k hdr
      refine ⟨fun i c hc _ => ?_, by simp [quiz_run]⟩
      simp at hc
  | cons p ps ih =>
      intro k hdr
      by_cases hp : is_long_term_memory p = true
      · refine ⟨?_, ?_⟩
        · intro i c hc hg
          cases i with
          | zero =>
              simp only [List.getElem?_cons_zero, Option.some_inj] at hc
              subst hc
              simp [quiz_run, hp]
          | succ n =>
              simp only [List.getElem?_cons_succ] at hc
              have h := (ih k hdr).1 n c hc hg
              simpa [quiz_run, hp] using h
        · have h := (ih k hdr).2
          simp [quiz_run, hp, h, List.filter_cons]
      · refine ⟨?_, ?_⟩
        · intro i c hc hg
          cases i with
          | zero =>
              simp only [List.getElem?_cons_zero, Option.some_inj] at hc
              subst hc
              exact absurd hg hp
          | succ n =>
              simp only [List.getElem?_cons_succ] at hc
              have h := (ih (k + 1) (update_statistics hdr (js k))).1 n c hc hg
              simpa [quiz_run, hp] using h
        · have h := (ih (k + 1) (update_statistics hdr (js k))).2
          simp [quiz_run, hp, h, List.filter_cons]

/-- C7: in a review session, every record that is graduated at the start is
skipped — it stays at its position completely unchanged — and the records
shown are exactly the non-graduated ones, in collection order. -/
theorem c7_due_selection (js : Nat → Bool) (hdr : Flashcard)
    (cards : List Flashcard) :
    (∀ (i : Nat) (c : Flashcard), cards[i]? = some c → is_long_term_memory c = true →
      (quiz js hdr cards).2.1[i]? = some c)
    ∧ (quiz js hdr cards).2.2 = cards.filter fun p => !is_long_term_memory p :=
  quiz_run_spec js cards 0 hdr

/-- C7 (witness): a session over one graduated and one fresh card. -/
theorem c7_due_selection_witness :
    (quiz (fun _ => true) create_flashcard
        [⟨none, none, none, 0, 10, 0, 0, 0⟩, ⟨none, none, none, 0, 0, 0, 0, 0⟩]).2.1[0]?
      = some ⟨none, none, none, 0, 10, 0, 0, 0⟩
    ∧ (quiz (fun _ => true) create_flashcard
        [⟨none, none, none, 0, 10, 0, 0, 0⟩, ⟨none, none, none, 0, 0, 0, 0, 0⟩]).2.2
      = List.filter (fun p => !is_long_term_memory p)
          [⟨none, none, none, 0, 10, 0, 0, 0⟩, ⟨none, none, none, 0, 0, 0, 0, 0⟩] := by
  have h := c7_due_selection (fun _ => true) create_flashcard
    [⟨none, none, none, 0, 10, 0, 0, 0⟩, ⟨none, none, none, 0, 0, 0, 0, 0⟩]
  exact ⟨h.1 0 _ (by decide) (by decide), h.2⟩

/-- C10: `update_statistics` changes only the three statistics fields; the
comment, question, answer and both review times are untouched by either
judgment.  In particular judging a card never moves its due time. -/
theorem c10_update_frame (fc : Flashcard) (right : Bool) :
    (update_statistics fc right).comment = fc.comment
    ∧ (update_statistics fc right).question = fc.question
    ∧ (update_statistics fc right).answer = fc.answer
    ∧ (update_statistics fc right).prev_time = fc.prev_time
    ∧ (update_statistics fc right).next_time = fc.next_time :=
  ⟨rfl, rfl, rfl, rfl, rfl⟩

/-- Helper for C8: `add_flashcard` produces a permutation of consing. -/
theorem add_flashcard_perm (node : Flashcard) (t : Nat) (l : List Flashcard) :
    (add_flashcard node t l).Perm (node :: l) := by
  induction l with
  | nil => simp [add_flashcard]
  | cons p ps ih =>
      simp only [add_flashcard]
      split
      · exact List.Perm.refl _
      · exact (ih.cons p).trans (List.Perm.swap node p ps)

/-- Helper for C8: the extract-and-reinsert loop permutes its input. -/
theorem sort_foldl_perm (t : Nat) :
    ∀ (l acc : List Flashcard),
      (List.foldl (fun a p => add_flashcard p t a) acc l).Perm (l ++ acc)
  | [], acc => by simp
  | p :: l, acc => by
      simp only [List.foldl_cons]
      refine (sort_foldl_perm t l (add_flashcard p t acc)).trans ?_
      refine (List.Perm.append_left l (add_flashcard_perm p t acc)).trans ?_
      exact List.perm_middle

/-- Helper for C8: `sort_flashcard` permutes the collection. -/
theorem sort_flashcard_perm (t : Nat) (l : List Flashcard) :
    (sort_flashcard t l).Perm l := by
  simpa [sort_flashcard] using sort_foldl_perm t l []

/-- C8 (counterexample): three records (streak 0/accuracy 2, streak 5/accuracy
0, streak 10/accuracy 1, all with the same future due date) on which the
comparator cycles: inserting them in two different orders and then fully
re-sorting yields two different final orders. -/
theorem c8_counterexample :
    sort_flashcard 0 (sort_flashcard 0
        [⟨none, none, none, 0, 0, 2, 0, 100⟩, ⟨none, none, none, 0, 5, 0, 0, 100⟩,
         ⟨none, none, none, 0, 10, 1, 0, 100⟩])
    ≠ sort_flashcard 0 (sort_flashcard 0
        [⟨none, none, none, 0, 10, 1, 0, 100⟩, ⟨none, none, none, 0, 5, 0, 0, 100⟩,
         ⟨none, none, none, 0, 0, 2, 0, 100⟩]) := by
  decide

/-- C8 (amended): inserting the records one by one in any permutation and then
fully re-sorting always yields collections containing exactly the same records
(each outcome is a permutation of the record multiset), but — the comparator
not being transitive — the final order itself can depend on the insertion
order. -/
theorem c8_amended (t : Nat) (l₁ l₂ : List Flashcard) (h : l₁.Perm l₂) :
    (sort_flashcard t (sort_flashcard t l₁)).Perm
      (sort_flashcard t (sort_flashcard t l₂)) := by
  have a := (sort_flashcard_perm t (sort_flashcard t l₁)).trans (sort_flashcard_perm t l₁)
  have b := (sort_flashcard_perm t (sort_flashcard t l₂)).trans (sort_flashcard_perm t l₂)
  exact a.trans (h.trans b.symm)

/-- C6: parsing does not survive out-of-order markers that need an open card:
a `<<` line before any `>>`, or field content after a `Q:` before any `>>`,
dereferences the NULL card pointer — undefined behavior, not silent
ignoring.  The model marks the crash as `none`. -/
theorem c6_crash_on_markers_before_card (addMonth : Nat → Nat) (t : Nat) :
    load_flashcard addMonth t ['<', '<', '\n'] = none
    ∧ load_flashcard addMonth t ['Q', ':', '\n', 'x', '\n'] = none :=
  ⟨rfl, rfl⟩

/-- C4 (counterexample): in a file whose first card carries an internal `#`
comment line, that line accumulates into the header comment, not into the
card — the card's own comment comes out empty. -/
theorem c4_counterexample :
    load_flashcard (fun s => s + 1) 7
        ['>', '>', '\n', '#', 'c', '\n', 'Q', ':', '\n', 'q', '\n',
         'A', ':', '\n', 'a', '\n', '<', '<', '\n']
      = some ⟨{ create_flashcard with comment := some ['#', 'c', '\n'] },
          [⟨some [], some ['q', '\n'], some ['a', '\n'], 0, 0, 0, 7, 8⟩]⟩ := by
  rfl

/-- C9 (counterexample): on `c9input` the record fields do not reach a fixed
point between the first and the second application of serialize-after-parse:
the first-ranked card's comment migrates into the header comment (the header
comment and the per-card comments both change). -/
theorem c9_counterexample :
    (((load_flashcard (fun s => s + 1) 0 c9input).bind update_data_file).bind
        (load_flashcard (fun s => s + 1) 0)).map
        (fun r => (r.header.comment, r.cards.map Flashcard.comment))
      ≠ (load_flashcard (fun s => s + 1) 0 c9input).map
        (fun r => (r.header.comment, r.cards.map Flashcard.comment)) := by
  decide

/-! ## Reparsing: basic lemmas -/

theorem runP_append (am : Nat → Nat) (t : Nat) (st : PState) (ls₁ ls₂ : List Str) :
    runP am t st (ls₁ ++ ls₂)
      = (runP am t st ls₁).bind fun st' => runP am t st' ls₂ := by
  induction ls₁ generalizing st with
  | nil => simp [runP]
  | cons l ls ih =>
      cases h : parseLine am t st l with
      | none => simp [runP, h]
      | some st' => simp [runP, h, ih st']

theorem catAll_nil (h : Option Str) : catAll h [] = h := rfl

theorem catAll_cons (h : Option Str) (l : Str) (ls : List Str) :
    catAll h (l :: ls) = catAll (some (h.getD [] ++ l)) ls := rfl

theorem catAll_eq (h : Option Str) (ls : List Str) (hne : ls ≠ []) :
    catAll h ls = some (h.getD [] ++ ls.flatten) := by
  induction ls generalizing h with
  | nil => cases hne rfl
  | cons l ls ih =>
      cases ls with
      | nil => simp [catAll, cat_string]
      | cons l' ls' =>
          rw [catAll_cons, ih _ (by simp)]
          simp [List.append_assoc]

theorem splitL_nlline (b : Str) (s acc : Str) (hb : '\n' ∉ b) :
    splitL (b ++ '\n' :: s) acc = (acc.reverse ++ b ++ ['\n']) :: splitL s [] := by
  induction b generalizing acc with
  | nil => simp [splitL]
  | cons c b ih =>
      have hc : ¬ c = '\n' := fun h => hb (h ▸ List.mem_cons_self c b)
      have hb' : '\n' ∉ b := fun h => hb (List.mem_cons_of_mem c h)
      simp only [List.cons_append, splitL, hc, if_false, List.append_eq]
      rw [ih (c :: acc) hb']
      simp [List.append_assoc]

theorem toLines_nlline_append (l s : Str) (hl : NlLine l) :
    toLines (l ++ s) = l :: toLines s := by
  obtain ⟨b, rfl, hb⟩ := hl
  have h := splitL_nlline b s [] hb
  simp only [toLines, List.append_assoc, List.singleton_append] at h ⊢
  simpa using h

theorem toLines_flatten_append (ls : List Str) (s : Str)
    (h : ∀ l ∈ ls, NlLine l) :
    toLines (ls.flatten ++ s) = ls ++ toLines s := by
  induction ls with
  | nil => simp
  | cons l ls ih =>
      rw [List.flatten_cons, List.append_assoc,
        toLines_nlline_append l _ (h l (List.mem_cons_self l ls)),
        ih fun l' hl' => h l' (List.mem_cons_of_mem l hl')]
      simp

theorem toLines_nil : toLines [] = [] := rfl

theorem toLines_flatten (ls : List Str) (h : ∀ l ∈ ls, NlLine l) :
    toLines ls.flatten = ls := by
  have h2 := toLines_flatten_append ls [] h
  rw [List.append_nil] at h2
  rw [h2, toLines_nil, List.append_nil]

theorem splitL_all_nl (y : Str) :
    ∀ (acc : Str), '\n' ∉ acc → ∀ l ∈ splitL (y ++ ['\n']) acc, NlLine l := by
  induction y with
  | nil =>
      intro acc hacc l hl
      simp only [List.nil_append, splitL, if_true] at hl
      rcases List.mem_cons.mp hl with hl | hl
      · exact ⟨acc.reverse, by simpa using hl, by simpa using hacc⟩
      · simp [splitL] at hl
  | cons c y ih =>
      intro acc hacc l hl
      by_cases hc : c = '\n'
      · subst hc
        simp only [List.cons_append, splitL, if_true] at hl
        rcases List.mem_cons.mp hl with hl | hl
        · exact ⟨acc.reverse, by simpa using hl, by simpa using hacc⟩
        · exact ih [] (by simp) l hl
      · simp only [List.cons_append, splitL, hc, if_false] at hl
        refine ih (c :: acc) ?_ l hl
        intro hmem
        rcases List.mem_cons.mp hmem with h | h
        · exact hc h.symm
        · exact hacc h

theorem toLines_all_nl (x : Str) (hx : x = [] ∨ ∃ y, x = y ++ ['\n']) :
    ∀ l ∈ toLines x, NlLine l := by
  rcases hx with rfl | ⟨y, rfl⟩
  · intro l hl; simp [toLines, splitL] at hl
  · exact splitL_all_nl y [] (by simp)

theorem startsHash_cons (c : Char) (cs : Str) :
    startsHash (c :: cs) = decide (c = '#') := rfl

theorem hashline_shape {l : Str} (h : HashLine l) : ∃ rest, l = '#' :: rest := by
  obtain ⟨hh, -⟩ := h
  cases l with
  | nil => simp [startsHash] at hh
  | cons c cs =>
      rw [startsHash_cons, decide_eq_true_eq] at hh
      exact ⟨cs, by rw [hh]⟩

theorem starts2_hashline {l : Str} (h : HashLine l) (a b : Char) (ha : a ≠ '#') :
    starts2 a b l = false := by
  obtain ⟨rest, rfl⟩ := hashline_shape h
  cases rest with
  | nil => rfl
  | cons y ys => simp [starts2, Ne.symm ha]

theorem add_tagged_ne_nil (n : Nat × Flashcard) (t : Nat)
    (l : List (Nat × Flashcard)) : add_tagged n t l ≠ [] := by
  cases l with
  | nil => simp [add_tagged]
  | cons p ps =>
      simp only [add_tagged]
      split <;> simp

theorem mem_add_tagged {x n : Nat × Flashcard} {t : Nat}
    {l : List (Nat × Flashcard)} (h : x ∈ add_tagged n t l) : x = n ∨ x ∈ l := by
  induction l with
  | nil => simpa [add_tagged] using h
  | cons p ps ih =>
      simp only [add_tagged] at h
      split at h
      · rcases List.mem_cons.mp h with h | h
        · exact Or.inl h
        · exact Or.inr h
      · rcases List.mem_cons.mp h with h | h
        · exact Or.inr (h ▸ List.mem_cons_self p ps)
        · rcases ih h with h | h
          · exact Or.inl h
          · exact Or.inr (List.mem_cons_of_mem p h)

theorem map_snd_add_tagged (n : Nat × Flashcard) (t : Nat)
    (l : List (Nat × Flashcard)) :
    (add_tagged n t l).map Prod.snd = add_flashcard n.2 t (l.map Prod.snd) := by
  induction l with
  | nil => simp [add_tagged, add_flashcard]
  | cons p ps ih =>
      simp only [add_tagged, add_flashcard, List.map_cons]
      split
      · simp
      · simp [ih]

/-- C8 (witness): the amended theorem on a two-record swap. -/
theorem c8_amended_witness :
    (sort_flashcard 0 (sort_flashcard 0
        [⟨none, none, none, 0, 0, 2, 0, 100⟩, ⟨none, none, none, 0, 5, 0, 0, 100⟩])).Perm
      (sort_flashcard 0 (sort_flashcard 0
        [⟨none, none, none, 0, 5, 0, 0, 100⟩, ⟨none, none, none, 0, 0, 2, 0, 100⟩])) :=
  c8_amended 0 _ _
    (List.Perm.swap (⟨none, none, none, 0, 5, 0, 0, 100⟩ : Flashcard)
      ⟨none, none, none, 0, 0, 2, 0, 100⟩ ([] : List Flashcard))

theorem runP_cons (am : Nat → Nat) (t : Nat) (st : PState) (l : Str)
    (ls : List Str) :
    runP am t st (l :: ls)
      = (parseLine am t st l).bind fun st' => runP am t st' ls := by
  cases h : parseLine am t st l <;> simp [runP, h]

theorem runP_hash_empty (am : Nat → Nat) (t : Nat) (st : PState) (ls : List Str)
    (hcards : st.cards = []) (hls : ∀ l ∈ ls, startsHash l = true) :
    runP am t st ls = some { st with hcomment := catAll st.hcomment ls } := by
  induction ls generalizing st with
  | nil => rfl
  | cons l ls ih =>
      have h1 : startsHash l = true := hls l (List.mem_cons_self _ _)
      have step : parseLine am t st l
          = some { st with hcomment := some (cat_string st.hcomment l) } := by
        unfold parseLine
        simp [h1, hcards]
      rw [runP_cons, step, Option.some_bind,
        ih _ (by simpa using hcards) (fun l' h' => hls l' (List.mem_cons_of_mem l h'))]
      rfl

theorem runP_hash_fresh (am : Nat → Nat) (t : Nat) (st : PState) (c : Flashcard)
    (ls : List Str) (hcards : st.cards ≠ []) (hfc : st.fc = FcRef.fresh c)
    (hls : ∀ l ∈ ls, HashLine l) :
    runP am t st ls
      = some { st with
          fc := FcRef.fresh { c with comment := catAll c.comment ls } } := by
  induction ls generalizing st c with
  | nil =>
      show runP am t st [] = some { st with fc := FcRef.fresh c }
      rw [← hfc]
      rfl
  | cons l ls ih =>
      have hl : HashLine l := hls l (List.mem_cons_self _ _)
      have h1 : startsHash l = true := hl.1
      have hne : st.cards.isEmpty = false := by
        simpa [List.isEmpty_iff] using hcards
      have h2 : starts2 '>' '>' l = false := starts2_hashline hl '>' '>' (by decide)
      have step : parseLine am t st l
          = some { st with
              fc := FcRef.fresh { c with comment := some (cat_string c.comment l) } } := by
        unfold parseLine mutate_fc
        simp [h1, hne, h2, hfc]
      rw [runP_cons, step, Option.some_bind,
        ih _ _ (by simpa using hcards) rfl
          (fun l' h' => hls l' (List.mem_cons_of_mem l h'))]
      rfl

theorem runP_content_question (am : Nat → Nat) (t : Nat) (st : PState)
    (c : Flashcard) (ls : List Str) (hstage : st.stage = Stage.question)
    (hfc : st.fc = FcRef.fresh c) (hls : ∀ l ∈ ls, ContentLine l) :
    runP am t st ls
      = some { st with
          fc := FcRef.fresh { c with question := catAll c.question ls } } := by
  induction ls generalizing st c with
  | nil =>
      show runP am t st [] = some { st with fc := FcRef.fresh c }
      rw [← hfc]
      rfl
  | cons l ls ih =>
      obtain ⟨-, e1, e2, e3, e4, e5, e6⟩ := hls l (List.mem_cons_self _ _)
      have step : parseLine am t st l
          = some { st with
              fc := FcRef.fresh { c with question := some (cat_string c.question l) } } := by
        unfold parseLine mutate_fc
        simp [e1, e2, e3, e4, e5, e6, hstage, hfc]
      rw [runP_cons, step, Option.some_bind,
        ih _ _ (by simpa using hstage) rfl
          (fun l' h' => hls l' (List.mem_cons_of_mem l h'))]
      rfl

theorem runP_content_answer (am : Nat → Nat) (t : Nat) (st : PState)
    (c : Flashcard) (ls : List Str) (hstage : st.stage = Stage.answer)
    (hfc : st.fc = FcRef.fresh c) (hls : ∀ l ∈ ls, ContentLine l) :
    runP am t st ls
      = some { st with
          fc := FcRef.fresh { c with answer := catAll c.answer ls } } := by
  induction ls generalizing st c with
  | nil =>
      show runP am t st [] = some { st with fc := FcRef.fresh c }
      rw [← hfc]
      rfl
  | cons l ls ih =>
      obtain ⟨-, e1, e2, e3, e4, e5, e6⟩ := hls l (List.mem_cons_self _ _)
      have step : parseLine am t st l
          = some { st with
              fc := FcRef.fresh { c with answer := some (cat_string c.answer l) } } := by
        unfold parseLine mutate_fc
        simp [e1, e2, e3, e4, e5, e6, hstage, hfc]
      rw [runP_cons, step, Option.some_bind,
        ih _ _ (by simpa using hstage) rfl
          (fun l' h' => hls l' (List.mem_cons_of_mem l h'))]
      rfl

theorem runP_stats (am : Nat → Nat) (t : Nat) (st : PState) (c : Flashcard)
    (ls : List Str) (hstage : st.stage = Stage.statistics)
    (hfc : st.fc = FcRef.fresh c) (hls : ∀ l ∈ ls, ContentLine l) :
    runP am t st ls
      = some { st with
          fc := FcRef.fresh (ls.foldl (fun c' l => load_info t c' l) c) } := by
  induction ls generalizing st c with
  | nil =>
      show runP am t st [] = some { st with fc := FcRef.fresh c }
      rw [← hfc]
      rfl
  | cons l ls ih =>
      obtain ⟨-, e1, e2, e3, e4, e5, e6⟩ := hls l (List.mem_cons_self _ _)
      have step : parseLine am t st l
          = some { st with fc := FcRef.fresh (load_info t c l) } := by
        unfold parseLine mutate_fc
        simp [e1, e2, e3, e4, e5, e6, hstage, hfc]
      rw [runP_cons, step, Option.some_bind,
        ih _ _ (by simpa using hstage) rfl
          (fun l' h' => hls l' (List.mem_cons_of_mem l h'))]
      rfl

theorem runP_block (am : Nat → Nat) (t : Nat) (st : PState) (b : BlockDesc)
    (hok : BlockOk b) (hstage : st.stage = Stage.ignore) :
    runP am t st (blockLines b) = some (applyBlock am t st b) := by
  obtain ⟨hcl, hql, hal, hsl⟩ := hok
  have sNL : parseLine am t st ['\n'] = some st := by
    unfold parseLine
    simp [startsHash, starts2, hstage]
  have sGT : ∀ s : PState, parseLine am t s ['>', '>', '\n']
      = some { s with fc := FcRef.fresh create_flashcard } := by
    intro s; unfold parseLine; simp [startsHash, starts2]
  have sQ : ∀ s : PState, parseLine am t s ['Q', ':', '\n']
      = some { s with stage := Stage.question } := by
    intro s; unfold parseLine; simp [startsHash, starts2]
  have sA : ∀ s : PState, parseLine am t s ['A', ':', '\n']
      = some { s with stage := Stage.answer } := by
    intro s; unfold parseLine; simp [startsHash, starts2]
  have sS : ∀ s : PState, parseLine am t s ['S', ':', '\n']
      = some { s with stage := Stage.statistics } := by
    intro s; unfold parseLine; simp [startsHash, starts2]
  have sLT : ∀ (s : PState) (c : Flashcard), s.fc = FcRef.fresh c →
      parseLine am t s ['<', '<', '\n']
        = some ⟨Stage.ignore, FcRef.added s.nextId, s.hcomment,
            add_tagged (s.nextId, fix_flashcard am t c) t s.cards,
            s.nextId + 1⟩ := by
    intro s c hcfc; unfold parseLine; simp [startsHash, starts2, hcfc]
  by_cases hc : st.cards = []
  · rw [blockLines, runP_cons, sNL, Option.some_bind, runP_cons, sGT st,
      Option.some_bind]
    set A := { st with fc := FcRef.fresh create_flashcard } with hA
    rw [runP_append,
      runP_hash_empty am t A b.cl (show A.cards = [] from hc)
        (fun l hl => (hcl l hl).1),
      Option.some_bind]
    set B := { A with hcomment := catAll A.hcomment b.cl } with hB
    rw [runP_cons, sQ B, Option.some_bind]
    set C := { B with stage := Stage.question } with hC
    rw [runP_append,
      runP_content_question am t C create_flashcard b.ql
        (show C.stage = Stage.question from rfl)
        (show C.fc = FcRef.fresh create_flashcard from rfl) hql,
      Option.some_bind]
    set cQ := { create_flashcard with
      question := catAll create_flashcard.question b.ql } with hcQ
    set D := { C with fc := FcRef.fresh cQ } with hD
    rw [runP_cons, sA D, Option.some_bind]
    set E := { D with stage := Stage.answer } with hE
    rw [runP_append,
      runP_content_answer am t E cQ b.al
        (show E.stage = Stage.answer from rfl)
        (show E.fc = FcRef.fresh cQ from rfl) hal,
      Option.some_bind]
    set cA := { cQ with answer := catAll cQ.answer b.al } with hcA
    set F := { E with fc := FcRef.fresh cA } with hF
    rw [runP_cons, sS F, Option.some_bind]
    set G := { F with stage := Stage.statistics } with hG
    rw [runP_append,
      runP_stats am t G cA b.sl
        (show G.stage = Stage.statistics from rfl)
        (show G.fc = FcRef.fresh cA from rfl) hsl,
      Option.some_bind]
    set cS := b.sl.foldl (fun c' l => load_info t c' l) cA with hcS
    set H := { G with fc := FcRef.fresh cS } with hH
    rw [runP_cons, sLT H cS (show H.fc = FcRef.fresh cS from rfl),
      Option.some_bind]
    simp only [runP]
    simp only [hH, hG, hF, hE, hD, hC, hB, hA, hcS, hcA, hcQ, applyBlock,
      blockCard, hc, List.isEmpty_nil, if_true]
    rfl
  · have hcF : st.cards.isEmpty = false := by
      simpa [List.isEmpty_iff] using hc
    rw [blockLines, runP_cons, sNL, Option.some_bind, runP_cons, sGT st,
      Option.some_bind]
    set A := { st with fc := FcRef.fresh create_flashcard } with hA
    rw [runP_append,
      runP_hash_fresh am t A create_flashcard b.cl
        (show A.cards ≠ [] from hc)
        (show A.fc = FcRef.fresh create_flashcard from rfl) hcl,
      Option.some_bind]
    set cC := { create_flashcard with
      comment := catAll create_flashcard.comment b.cl } with hcC
    set B := { A with fc := FcRef.fresh cC } with hB
    rw [runP_cons, sQ B, Option.some_bind]
    set C := { B with stage := Stage.question } with hC
    rw [runP_append,
      runP_content_question am t C cC b.ql
        (show C.stage = Stage.question from rfl)
        (show C.fc = FcRef.fresh cC from rfl) hql,
      Option.some_bind]
    set cQ := { cC with question := catAll cC.question b.ql } with hcQ
    set D := { C with fc := FcRef.fresh cQ } with hD
    rw [runP_cons, sA D, Option.some_bind]
    set E := { D with stage := Stage.answer } with hE
    rw [runP_append,
      runP_content_answer am t E cQ b.al
        (show E.stage = Stage.answer from rfl)
        (show E.fc = FcRef.fresh cQ from rfl) hal,
      Option.some_bind]
    set cA := { cQ with answer := catAll cQ.answer b.al } with hcA
    set F := { E with fc := FcRef.fresh cA } with hF
    rw [runP_cons, sS F, Option.some_bind]
    set G := { F with stage := Stage.statistics } with hG
    rw [runP_append,
      runP_stats am t G cA b.sl
        (show G.stage = Stage.statistics from rfl)
        (show G.fc = FcRef.fresh cA from rfl) hsl,
      Option.some_bind]
    set cS := b.sl.foldl (fun c' l => load_info t c' l) cA with hcS
    set H := { G with fc := FcRef.fresh cS } with hH
    rw [runP_cons, sLT H cS (show H.fc = FcRef.fresh cS from rfl),
      Option.some_bind]
    simp only [runP]
    simp only [hH, hG, hF, hE, hD, hC, hB, hA, hcS, hcA, hcQ, hcC, applyBlock,
      blockCard, hcF, if_false]
    rfl

theorem runP_blocks (am : Nat → Nat) (t : Nat) (st : PState)
    (bs : List BlockDesc) (hok : ∀ b ∈ bs, BlockOk b)
    (hstage : st.stage = Stage.ignore) :
    runP am t st ((bs.map blockLines).flatten)
      = some (foldBlocks am t st bs) := by
  induction bs generalizing st with
  | nil => simp [runP, foldBlocks]
  | cons b bs ih =>
      rw [List.map_cons, List.flatten_cons, runP_append,
        runP_block am t st b (hok b (List.mem_cons_self _ _)) hstage,
        Option.some_bind,
        ih _ (fun b' h' => hok b' (List.mem_cons_of_mem b h')) rfl]
      rfl

theorem load_info_text (t : Nat) (c : Flashcard) (l : Str) :
    (load_info t c l).comment = c.comment
    ∧ (load_info t c l).question = c.question
    ∧ (load_info t c l).answer = c.answer := by
  unfold load_info
  repeat' split
  all_goals exact ⟨rfl, rfl, rfl⟩

theorem foldl_load_info_text (t : Nat) (c : Flashcard) (ls : List Str) :
    (ls.foldl (fun c' l => load_info t c' l) c).comment = c.comment
    ∧ (ls.foldl (fun c' l => load_info t c' l) c).question = c.question
    ∧ (ls.foldl (fun c' l => load_info t c' l) c).answer = c.answer := by
  induction ls generalizing c with
  | nil => exact ⟨rfl, rfl, rfl⟩
  | cons l ls ih =>
      obtain ⟨e1, e2, e3⟩ := ih (load_info t c l)
      obtain ⟨f1, f2, f3⟩ := load_info_text t c l
      exact ⟨by rw [List.foldl_cons, e1, f1], by rw [List.foldl_cons, e2, f2],
        by rw [List.foldl_cons, e3, f3]⟩

theorem applyBlock_cards_ne (am : Nat → Nat) (t : Nat) (st : PState)
    (b : BlockDesc) : (applyBlock am t st b).cards ≠ [] :=
  add_tagged_ne_nil _ _ _

theorem foldBlocks_hcomment (am : Nat → Nat) (t : Nat) (st : PState)
    (bs : List BlockDesc) :
    (foldBlocks am t st bs).hcomment
      = if st.cards.isEmpty then catAll st.hcomment (headCl bs)
        else st.hcomment := by
  cases bs with
  | nil => simp [foldBlocks, headCl, catAll_nil]
  | cons b bs =>
      have h2 : ∀ (s : PState) (bs' : List BlockDesc), s.cards ≠ [] →
          (foldBlocks am t s bs').hcomment = s.hcomment := by
        intro s bs'
        induction bs' generalizing s with
        | nil => intro _; rfl
        | cons b' bs' ih =>
            intro hs
            have : s.cards.isEmpty = false := by simpa [List.isEmpty_iff] using hs
            rw [foldBlocks, ih _ (applyBlock_cards_ne am t s b')]
            simp [applyBlock, this]
      rw [foldBlocks, h2 _ _ (applyBlock_cards_ne am t st b)]
      simp [applyBlock, headCl]

theorem foldBlocks_map_snd_ne (am : Nat → Nat) (t : Nat) (st : PState)
    (bs : List BlockDesc) (h : st.cards ≠ []) :
    (foldBlocks am t st bs).cards.map Prod.snd
      = List.foldl (fun a c => add_flashcard c t a) (st.cards.map Prod.snd)
          (bs.map fun b => blockCard am t b false) := by
  induction bs generalizing st with
  | nil => rfl
  | cons b bs ih =>
      have hE : st.cards.isEmpty = false := by simpa [List.isEmpty_iff] using h
      rw [foldBlocks, ih _ (applyBlock_cards_ne am t st b)]
      simp [applyBlock, hE, map_snd_add_tagged]

theorem foldBlocks_cards (am : Nat → Nat) (t : Nat) (st : PState)
    (bs : List BlockDesc) (h : st.cards = []) :
    (foldBlocks am t st bs).cards.map Prod.snd
      = sort_flashcard t (blockCards am t bs) := by
  cases bs with
  | nil => simp [foldBlocks, h, blockCards, sort_flashcard]
  | cons b bs =>
      have hE : st.cards.isEmpty = true := by simp [h]
      rw [foldBlocks, foldBlocks_map_snd_ne am t _ bs (applyBlock_cards_ne am t st b)]
      simp only [applyBlock, hE, if_true, map_snd_add_tagged, h]
      simp [add_tagged, add_flashcard, blockCards, sort_flashcard]

theorem blockLines_nl (b : BlockDesc) (hok : BlockOk b) :
    ∀ l ∈ blockLines b, NlLine l := by
  obtain ⟨hcl, hql, hal, hsl⟩ := hok
  intro l hl
  unfold blockLines at hl
  simp only [List.mem_cons, List.mem_append, List.mem_singleton,
    List.not_mem_nil, or_false] at hl
  rcases hl with rfl | rfl | hl | rfl | hl | rfl | hl | rfl | hl | rfl
  · exact ⟨[], rfl, by simp⟩
  · exact ⟨['>', '>'], rfl, by decide⟩
  · exact (hcl l hl).2
  · exact ⟨['Q', ':'], rfl, by decide⟩
  · exact (hql l hl).1
  · exact ⟨['A', ':'], rfl, by decide⟩
  · exact (hal l hl).1
  · exact ⟨['S', ':'], rfl, by decide⟩
  · exact (hsl l hl).1
  · exact ⟨['<', '<'], rfl, by decide⟩

theorem load_assembled (am : Nat → Nat) (t : Nat) (H : List Str)
    (bs : List BlockDesc) (hH : ∀ l ∈ H, HashLine l)
    (hbs : ∀ b ∈ bs, BlockOk b) :
    load_flashcard am t ((H ++ (bs.map blockLines).flatten).flatten)
      = some ⟨{ create_flashcard with
                comment := catAll (catAll none H) (headCl bs) },
          sort_flashcard t (blockCards am t bs)⟩ := by
  have hlines : ∀ l ∈ H ++ (bs.map blockLines).flatten, NlLine l := by
    intro l hl
    rcases List.mem_append.mp hl with hl | hl
    · exact (hH l hl).2
    · obtain ⟨ls, hls, hmem⟩ := List.mem_flatten.mp hl
      obtain ⟨b, hb, rfl⟩ := List.mem_map.mp hls
      exact blockLines_nl b (hbs b hb) l hmem
  unfold load_flashcard
  rw [toLines_flatten _ hlines, runP_append,
    runP_hash_empty am t initPState H rfl (fun l hl => (hH l hl).1),
    Option.some_bind,
    runP_blocks am t _ bs hbs rfl]
  simp only [Option.map_some']
  rw [foldBlocks_hcomment, foldBlocks_cards am t _ bs rfl]
  rfl

theorem blockCard_comment (am : Nat → Nat) (t : Nat) (b : BlockDesc) (m : Bool) :
    (blockCard am t b m).comment = some (if m then [] else b.cl.flatten) := by
  unfold blockCard fix_flashcard
  simp only
  rw [(foldl_load_info_text t _ b.sl).1]
  cases m with
  | true => rfl
  | false =>
      cases hcl : b.cl with
      | nil => simp [catAll_nil]
      | cons l ls =>
          rw [catAll_eq _ _ (by simp)]
          simp

theorem blockCards_comments (am : Nat → Nat) (t : Nat) (bs : List BlockDesc) :
    (blockCards am t bs).map Flashcard.comment = commentsSpec bs := by
  cases bs with
  | nil => rfl
  | cons b rest =>
      simp [blockCards, commentsSpec, blockCard_comment, List.map_map,
        Function.comp]

/-- C4 (amended): parsing a header-comment prefix followed by well-formed
card blocks routes every `#` line written before the first completed card —
including the `#` lines inside the *first* card — into the header comment;
only the second and later cards keep their own `#` lines as their comment
(the first card's comment comes out empty). -/
theorem c4_amended (am : Nat → Nat) (t : Nat) (H : List Str)
    (bs : List BlockDesc) (hH : ∀ l ∈ H, HashLine l)
    (hbs : ∀ b ∈ bs, BlockOk b) :
    load_flashcard am t ((H ++ (bs.map blockLines).flatten).flatten)
      = some ⟨{ create_flashcard with
                comment := catAll (catAll none H) (headCl bs) },
          sort_flashcard t (blockCards am t bs)⟩
    ∧ (sort_flashcard t (blockCards am t bs)).Perm (blockCards am t bs)
    ∧ (blockCards am t bs).map Flashcard.comment = commentsSpec bs :=
  ⟨load_assembled am t H bs hH hbs, sort_flashcard_perm t _,
    blockCards_comments am t bs⟩

/-- C4 (witness): the amended theorem on a file with one header comment line
and two cards that both carry an internal comment line. -/
theorem c4_amended_witness :
    load_flashcard (fun s => s + 1) 7
        (([['#', 'h', '\n']]
          ++ ([⟨[['#', 'c', '\n']], [['q', '\n']], [['a', '\n']], []⟩,
               ⟨[['#', 'd', '\n']], [['q', '\n']], [['a', '\n']], []⟩].map
              blockLines).flatten).flatten)
      = some ⟨{ create_flashcard with
                comment := catAll (catAll none [['#', 'h', '\n']])
                  (headCl [⟨[['#', 'c', '\n']], [['q', '\n']], [['a', '\n']], []⟩,
                    ⟨[['#', 'd', '\n']], [['q', '\n']], [['a', '\n']], []⟩]) },
          sort_flashcard 7 (blockCards (fun s => s + 1) 7
            [⟨[['#', 'c', '\n']], [['q', '\n']], [['a', '\n']], []⟩,
             ⟨[['#', 'd', '\n']], [['q', '\n']], [['a', '\n']], []⟩])⟩
    ∧ (sort_flashcard 7 (blockCards (fun s => s + 1) 7
          [⟨[['#', 'c', '\n']], [['q', '\n']], [['a', '\n']], []⟩,
           ⟨[['#', 'd', '\n']], [['q', '\n']], [['a', '\n']], []⟩])).Perm
        (blockCards (fun s => s + 1) 7
          [⟨[['#', 'c', '\n']], [['q', '\n']], [['a', '\n']], []⟩,
           ⟨[['#', 'd', '\n']], [['q', '\n']], [['a', '\n']], []⟩])
    ∧ (blockCards (fun s => s + 1) 7
          [⟨[['#', 'c', '\n']], [['q', '\n']], [['a', '\n']], []⟩,
           ⟨[['#', 'd', '\n']], [['q', '\n']], [['a', '\n']], []⟩]).map
        Flashcard.comment
      = commentsSpec [⟨[['#', 'c', '\n']], [['q', '\n']], [['a', '\n']], []⟩,
          ⟨[['#', 'd', '\n']], [['q', '\n']], [['a', '\n']], []⟩] := by
  refine c4_amended (fun s => s + 1) 7 _ _ ?_ ?_
  · intro l hl
    simp only [List.mem_singleton] at hl
    subst hl
    exact ⟨rfl, ['#', 'h'], rfl, by decide⟩
  · intro b hb
    have hq : ∀ l ∈ [['q', '\n']], ContentLine l := by
      intro l hl
      simp only [List.mem_singleton] at hl
      subst hl
      exact ⟨⟨['q'], rfl, by decide⟩, rfl, rfl, rfl, rfl, rfl, rfl⟩
    have ha : ∀ l ∈ [['a', '\n']], ContentLine l := by
      intro l hl
      simp only [List.mem_singleton] at hl
      subst hl
      exact ⟨⟨['a'], rfl, by decide⟩, rfl, rfl, rfl, rfl, rfl, rfl⟩
    rcases List.mem_cons.mp hb with rfl | hb
    · exact ⟨by
        intro l hl
        simp only [List.mem_singleton] at hl
        subst hl
        exact ⟨rfl, ['#', 'c'], rfl, by decide⟩, hq, ha, by simp⟩
    · rcases List.mem_cons.mp hb with rfl | hb
      · exact ⟨by
          intro l hl
          simp only [List.mem_singleton] at hl
          subst hl
          exact ⟨rfl, ['#', 'd'], rfl, by decide⟩, hq, ha, by simp⟩
      · simp at hb

/-! ## Scanning printed numbers back -/

theorem digit_facts {c : Char} (h : isDigitC c = true) :
    c ≠ '-' ∧ c ≠ '+' ∧ c ≠ '.' ∧ c ≠ 'e' ∧ c ≠ 'E' ∧ c ≠ '\n'
    ∧ isSpaceC c = false := by
  have hne : ∀ x : Char, isDigitC x = false → c ≠ x := fun x hx hEq => by
    rw [hEq, hx] at h
    exact Bool.false_ne_true h
  refine ⟨hne '-' (by decide), hne '+' (by decide), hne '.' (by decide),
    hne 'e' (by decide), hne 'E' (by decide), hne '\n' (by decide), ?_⟩
  unfold isSpaceC
  simp [hne ' ' (by decide), hne '\t' (by decide), hne '\n' (by decide),
    hne '\r' (by decide), hne '\x0b' (by decide), hne '\x0c' (by decide)]

theorem isDigitC_ofNat (d : Nat) (hd : d < 10) :
    isDigitC (Char.ofNat (48 + d)) = true := by
  interval_cases d <;> decide

theorem digitVal_ofNat (d : Nat) (hd : d < 10) :
    digitVal (Char.ofNat (48 + d)) = d := by
  interval_cases d <;> decide

theorem natCharsAux_acc (f : Nat) :
    ∀ (n : Nat) (acc : Str), natCharsAux f n acc = natCharsAux f n [] ++ acc := by
  induction f with
  | zero => intro n acc; rfl
  | succ f ih =>
      intro n acc
      by_cases h : n < 10
      · simp [natCharsAux, h]
      · simp only [natCharsAux, h, if_false]
        rw [ih (n / 10) (Char.ofNat (48 + n % 10) :: acc),
          ih (n / 10) [Char.ofNat (48 + n % 10)]]
        simp

theorem natCharsAux_eq (n : Nat) :
    ∀ f, n < 10 ^ f → 1 ≤ f → natCharsAux f n [] = natChars n := by
  induction n using Nat.strong_induction_on with
  | _ n ih =>
      intro f hf h1
      obtain ⟨f', rfl⟩ : ∃ f', f = f' + 1 := ⟨f - 1, by omega⟩
      by_cases h : n < 10
      · simp only [natCharsAux, h, if_true, natChars]
      · have hd : 0 < n := by omega
        have hf10 : n / 10 < 10 ^ f' := by
          rw [Nat.div_lt_iff_lt_mul (by norm_num : 0 < 10)]
          calc n < 10 ^ (f' + 1) := hf
          _ = 10 ^ f' * 10 := by ring
        have hf'1 : 1 ≤ f' := by
          by_contra hcon
          have hz : f' = 0 := by omega
          subst hz
          simp at hf
          omega
        have e1 : natCharsAux (f' + 1) n []
            = natCharsAux f' (n / 10) [] ++ [Char.ofNat (48 + n % 10)] := by
          simp only [natCharsAux, h, if_false]
          exact natCharsAux_acc f' (n / 10) _
        have e2 : natChars n
            = natCharsAux n (n / 10) [] ++ [Char.ofNat (48 + n % 10)] := by
          show natCharsAux (n + 1) n [] = _
          simp only [natCharsAux, h, if_false]
          exact natCharsAux_acc n (n / 10) _
        rw [e1, e2, ih (n / 10) (by omega) f' hf10 hf'1,
          ih (n / 10) (by omega) n
            (lt_of_le_of_lt (Nat.div_le_self n 10) (Nat.lt_pow_self (by norm_num) n))
            (by omega)]

theorem natChars_small (n : Nat) (h : n < 10) :
    natChars n = [Char.ofNat (48 + n)] := by
  show natCharsAux (n + 1) n [] = _
  simp [natCharsAux, h]

theorem natChars_rec (n : Nat) (h : ¬ n < 10) :
    natChars n = natChars (n / 10) ++ [Char.ofNat (48 + n % 10)] := by
  show natCharsAux (n + 1) n [] = _
  simp only [natCharsAux, h, if_false]
  rw [natCharsAux_acc n (n / 10),
    natCharsAux_eq (n / 10) n
      (lt_of_le_of_lt (Nat.div_le_self n 10) (Nat.lt_pow_self (by norm_num) n))
      (by omega)]

theorem natChars_all_digits (n : Nat) : ∀ c ∈ natChars n, isDigitC c = true := by
  induction n using Nat.strong_induction_on with
  | _ n ih =>
      by_cases h : n < 10
      · rw [natChars_small n h]
        intro c hc
        simp only [List.mem_singleton] at hc
        subst hc
        exact isDigitC_ofNat n h
      · rw [natChars_rec n h]
        intro c hc
        rcases List.mem_append.mp hc with hc | hc
        · exact ih (n / 10) (Nat.div_lt_self (by omega) (by norm_num)) c hc
        · simp only [List.mem_singleton] at hc
          subst hc
          exact isDigitC_ofNat _ (Nat.mod_lt n (by norm_num))

theorem natChars_ne_nil (n : Nat) : natChars n ≠ [] := by
  by_cases h : n < 10
  · rw [natChars_small n h]; simp
  · rw [natChars_rec n h]; simp

theorem scanNat_digits (ds : Str) :
    ∀ (r : Str) (a : Nat), (∀ c ∈ ds, isDigitC c = true) →
      (∀ c, r.head? = some c → isDigitC c = false) →
      scanNat (ds ++ r) a = (ds.foldl (fun x c => 10 * x + digitVal c) a, r) := by
  induction ds with
  | nil =>
      intro r a _ hr
      cases r with
      | nil => rfl
      | cons c r' => simp [scanNat, hr c rfl]
  | cons d ds ih =>
      intro r a hds hr
      have hd : isDigitC d = true := hds d (List.mem_cons_self _ _)
      simp only [List.cons_append, scanNat, hd, if_true, List.foldl_cons]
      exact ih r _ (fun c hc => hds c (List.mem_cons_of_mem d hc)) hr

theorem natChars_foldVal (n : Nat) :
    ∀ a, (natChars n).foldl (fun x c => 10 * x + digitVal c) a
      = a * 10 ^ (natChars n).length + n := by
  induction n using Nat.strong_induction_on with
  | _ n ih =>
      intro a
      by_cases h : n < 10
      · rw [natChars_small n h]
        simp only [List.foldl_cons, List.foldl_nil, List.length_singleton,
          pow_one, digitVal_ofNat n h]
        omega
      · rw [natChars_rec n h, List.foldl_append,
          ih (n / 10) (Nat.div_lt_self (by omega) (by norm_num)) a]
        simp only [List.foldl_cons, List.foldl_nil, List.length_append,
          List.length_singleton]
        rw [digitVal_ofNat _ (Nat.mod_lt n (by norm_num)), pow_succ,
          ← mul_assoc]
        have hmod := Nat.div_add_mod n 10
        generalize a * 10 ^ (natChars (n / 10)).length = K
        omega

theorem scanNat_natChars (n : Nat) (r : Str) (d : Char) (ds : Str)
    (hnd : natChars n = d :: ds)
    (hr : ∀ c, r.head? = some c → isDigitC c = false) :
    scanNat (ds ++ r) (digitVal d) = (n, r) := by
  have hds : ∀ c ∈ ds, isDigitC c = true := fun c hc =>
    natChars_all_digits n c (by rw [hnd]; exact List.mem_cons_of_mem d hc)
  rw [scanNat_digits ds r (digitVal d) hds hr]
  have hv := natChars_foldVal n 0
  rw [hnd] at hv
  simp only [List.foldl_cons, Nat.mul_zero, Nat.zero_add, Nat.zero_mul] at hv
  rw [hv]

theorem scanSignDigits_digit (d : Char) (cs : Str) (hd : isDigitC d = true) :
    scanSignDigits (d :: cs)
      = some (Int.ofNat (scanNat cs (digitVal d)).1,
          (scanNat cs (digitVal d)).2) := by
  obtain ⟨h1, h2, -⟩ := digit_facts hd
  unfold scanSignDigits
  split <;> simp_all

theorem scanSignDigits_neg (d : Char) (cs : Str) (hd : isDigitC d = true) :
    scanSignDigits ('-' :: d :: cs)
      = some (-(Int.ofNat (scanNat cs (digitVal d)).1),
          (scanNat cs (digitVal d)).2) := by
  simp [scanSignDigits, hd]

theorem natChars_shape (n : Nat) :
    ∃ d ds, natChars n = d :: ds ∧ isDigitC d = true := by
  cases hh : natChars n with
  | nil => exact absurd hh (natChars_ne_nil _)
  | cons d ds =>
      exact ⟨d, ds, rfl, natChars_all_digits n d (by
        rw [hh]; exact List.mem_cons_self _ _)⟩

theorem scanSignDigits_intChars (z : Int) (r : Str)
    (hr : ∀ c, r.head? = some c → isDigitC c = false) :
    scanSignDigits (intChars z ++ r) = some (z, r) := by
  by_cases hz : z < 0
  · have hic : intChars z = '-' :: natChars (-z).toNat := by
      simp [intChars, hz]
    obtain ⟨d, ds, hnd, hd⟩ := natChars_shape (-z).toNat
    rw [hic, hnd]
    simp only [List.cons_append]
    rw [scanSignDigits_neg d (ds ++ r) hd, scanNat_natChars _ _ _ _ hnd hr]
    have : ((-z).toNat : Int) = -z := Int.toNat_of_nonneg (by omega)
    simp [this]
  · have hic : intChars z = natChars z.toNat := by
      simp [intChars, hz]
    obtain ⟨d, ds, hnd, hd⟩ := natChars_shape z.toNat
    rw [hic, hnd]
    simp only [List.cons_append]
    rw [scanSignDigits_digit d (ds ++ r) hd, scanNat_natChars _ _ _ _ hnd hr]
    have : (z.toNat : Int) = z := Int.toNat_of_nonneg (by omega)
    simp [this]

theorem dropWhile_spaces (sp s : Str) (hsp : ∀ c ∈ sp, isSpaceC c = true) :
    (sp ++ s).dropWhile isSpaceC = s.dropWhile isSpaceC := by
  induction sp with
  | nil => rfl
  | cons c sp ih =>
      simp only [List.cons_append, List.dropWhile_cons,
        hsp c (List.mem_cons_self _ _), if_true]
      exact ih fun c' hc' => hsp c' (List.mem_cons_of_mem c hc')

theorem dropWhile_intChars (z : Int) (r : Str) :
    (intChars z ++ r).dropWhile isSpaceC = intChars z ++ r := by
  by_cases hz : z < 0
  · have hic : intChars z = '-' :: natChars (-z).toNat := by
      simp [intChars, hz]
    rw [hic]
    simp [List.dropWhile_cons, (by decide : isSpaceC '-' = false)]
  · have hic : intChars z = natChars z.toNat := by
      simp [intChars, hz]
    obtain ⟨d, ds, hnd, hd⟩ := natChars_shape z.toNat
    rw [hic, hnd]
    simp [List.dropWhile_cons, (digit_facts hd).2.2.2.2.2.2]

theorem scanIntTok_exact (sp : Str) (z : Int) (r : Str)
    (hsp : ∀ c ∈ sp, isSpaceC c = true)
    (hr : ∀ c, r.head? = some c → isDigitC c = false) :
    scanIntTok (sp ++ (intChars z ++ r)) = some (z, r) := by
  unfold scanIntTok
  rw [dropWhile_spaces sp _ hsp, dropWhile_intChars z r,
    scanSignDigits_intChars z r hr]

theorem scanFracAux_digits (frac : Str) :
    ∀ (r : Str) (acc sc : ℚ), (∀ c ∈ frac, isDigitC c = true) →
      (∀ c, r.head? = some c → isDigitC c = false) →
      scanFracAux (frac ++ r) acc sc
        = ((frac.foldl (fun p c => (p.1 + (digitVal c : ℚ) * p.2, p.2 / 10))
            (acc, sc)).1, r) := by
  induction frac with
  | nil =>
      intro r acc sc _ hr
      cases r with
      | nil => rfl
      | cons c r' => simp [scanFracAux, hr c rfl]
  | cons d fr ih =>
      intro r acc sc hds hr
      simp only [List.cons_append, scanFracAux,
        hds d (List.mem_cons_self _ _), if_true, List.foldl_cons]
      exact ih r _ _ (fun c hc => hds c (List.mem_cons_of_mem d hc)) hr

theorem scanAfterMantissa_stop (v : ℚ) (r : Str)
    (hr : ∀ c, r.head? = some c → c ≠ 'e' ∧ c ≠ 'E') :
    scanAfterMantissa v r = (v, r) := by
  unfold scanAfterMantissa
  cases r with
  | nil => simp
  | cons c r' => simp [(hr c rfl).1, (hr c rfl).2]

theorem scanAfterMantissa_exp (v : ℚ) (cs : Str) (e' : Int) (r2 : Str)
    (h : scanSignDigits cs = some (e', r2)) :
    scanAfterMantissa v ('e' :: cs) = (v * pow10 e', r2) := by
  simp [scanAfterMantissa, h]

theorem scanSignDigits_plus (d : Char) (cs : Str) (hd : isDigitC d = true) :
    scanSignDigits ('+' :: d :: cs)
      = some (Int.ofNat (scanNat cs (digitVal d)).1,
          (scanNat cs (digitVal d)).2) := by
  simp [scanSignDigits, hd]

theorem scanUFloat_int (d : Char) (ds rest : Str) (hd : isDigitC d = true)
    (hds : ∀ c ∈ ds, isDigitC c = true)
    (hrest : ∀ c, rest.head? = some c → isDigitC c = false ∧ c ≠ '.') :
    scanUFloat ((d :: ds) ++ rest)
      = some (scanAfterMantissa
          ((ds.foldl (fun x c => 10 * x + digitVal c) (digitVal d) : Nat) : ℚ)
          rest) := by
  simp only [List.cons_append]
  unfold scanUFloat
  simp only [hd, if_true]
  rw [scanNat_digits ds rest (digitVal d) hds fun c hc => (hrest c hc).1]
  cases rest with
  | nil => simp
  | cons c r' => simp [(hrest c rfl).2]

theorem scanUFloat_point (d : Char) (ds frac rest : Str)
    (hd : isDigitC d = true) (hds : ∀ c ∈ ds, isDigitC c = true)
    (hfrac : ∀ c ∈ frac, isDigitC c = true)
    (hrest : ∀ c, rest.head? = some c → isDigitC c = false) :
    scanUFloat ((d :: ds) ++ '.' :: (frac ++ rest))
      = some (scanAfterMantissa
          ((frac.foldl (fun p c => (p.1 + (digitVal c : ℚ) * p.2, p.2 / 10))
            (((ds.foldl (fun x c => 10 * x + digitVal c) (digitVal d) : Nat) : ℚ),
              (1 : ℚ) / 10)).1)
          rest) := by
  simp only [List.cons_append]
  unfold scanUFloat
  simp only [hd, if_true]
  rw [scanNat_digits ds ('.' :: (frac ++ rest)) (digitVal d) hds
    (fun c hc => by
      simp only [List.head?_cons, Option.some_inj] at hc
      subst hc
      decide)]
  simp only [List.head?_cons, Option.some_inj, if_true, List.tail_cons]
  rw [scanFracAux_digits frac rest _ _ hfrac hrest]

theorem stripZeros_subset (ds : Str) : ∀ c ∈ stripZeros ds, c ∈ ds := by
  intro c hc
  unfold stripZeros at hc
  rw [List.mem_reverse] at hc
  have := (List.dropWhile_sublist (fun c : Char => c = '0')).subset hc
  rwa [List.mem_reverse] at this

theorem expDigits_shape (n : Nat) :
    ∃ d ds, expDigits n = d :: ds ∧ isDigitC d = true
      ∧ ∀ c ∈ ds, isDigitC c = true := by
  unfold expDigits
  by_cases h : n < 10
  · refine ⟨'0', natChars n, by simp [h], by decide, ?_⟩
    exact natChars_all_digits n
  · obtain ⟨d, ds, hnd, hd⟩ := natChars_shape n
    refine ⟨d, ds, by simp [h, hnd], hd, ?_⟩
    intro c hc
    exact natChars_all_digits n c (by rw [hnd]; exact List.mem_cons_of_mem d hc)

theorem scanUFloat_shape_int (d : Char) (DS : Str) (hd : isDigitC d = true)
    (hds : ∀ c ∈ DS, isDigitC c = true) :
    ∃ v : ℚ, ∀ r, TokStop r → scanUFloat ((d :: DS) ++ r) = some (v, r) := by
  refine ⟨((DS.foldl (fun x c => 10 * x + digitVal c) (digitVal d) : Nat) : ℚ),
    fun r hr => ?_⟩
  rw [scanUFloat_int d DS r hd hds fun c hc => ⟨(hr c hc).1, (hr c hc).2.1⟩,
    scanAfterMantissa_stop _ r fun c hc => ⟨(hr c hc).2.2.1, (hr c hc).2.2.2⟩]

theorem scanUFloat_shape_point (d : Char) (DS FR : Str)
    (hd : isDigitC d = true) (hds : ∀ c ∈ DS, isDigitC c = true)
    (hfr : ∀ c ∈ FR, isDigitC c = true) :
    ∃ v : ℚ, ∀ r, TokStop r →
      scanUFloat ((d :: DS) ++ '.' :: (FR ++ r)) = some (v, r) := by
  refine ⟨(FR.foldl (fun p c => (p.1 + (digitVal c : ℚ) * p.2, p.2 / 10))
      (((DS.foldl (fun x c => 10 * x + digitVal c) (digitVal d) : Nat) : ℚ),
        (1 : ℚ) / 10)).1,
    fun r hr => ?_⟩
  rw [scanUFloat_point d DS FR r hd hds hfr fun c hc => (hr c hc).1,
    scanAfterMantissa_stop _ r fun c hc => ⟨(hr c hc).2.2.1, (hr c hc).2.2.2⟩]

theorem scanSignDigits_signed (sgn : Char) (hs : sgn = '+' ∨ sgn = '-')
    (m : Nat) :
    ∃ E : Int, ∀ r, (∀ c, r.head? = some c → isDigitC c = false) →
      scanSignDigits (sgn :: (expDigits m ++ r)) = some (E, r) := by
  obtain ⟨d1, ds1, hed, hd1, hds1⟩ := expDigits_shape m
  rcases hs with rfl | rfl
  · refine ⟨Int.ofNat
        (ds1.foldl (fun x c => 10 * x + digitVal c) (digitVal d1)),
      fun r hr => ?_⟩
    rw [hed]
    simp only [List.cons_append]
    rw [scanSignDigits_plus d1 (ds1 ++ r) hd1,
      scanNat_digits ds1 r (digitVal d1) hds1 hr]
  · refine ⟨-Int.ofNat
        (ds1.foldl (fun x c => 10 * x + digitVal c) (digitVal d1)),
      fun r hr => ?_⟩
    rw [hed]
    simp only [List.cons_append]
    rw [scanSignDigits_neg d1 (ds1 ++ r) hd1,
      scanNat_digits ds1 r (digitVal d1) hds1 hr]

theorem scanUFloat_shape_exp_int (d : Char) (DS : Str) (sgn : Char)
    (hs : sgn = '+' ∨ sgn = '-') (m : Nat) (hd : isDigitC d = true)
    (hds : ∀ c ∈ DS, isDigitC c = true) :
    ∃ v : ℚ, ∀ r, TokStop r →
      scanUFloat ((d :: DS) ++ 'e' :: sgn :: (expDigits m ++ r))
        = some (v, r) := by
  obtain ⟨E, hE⟩ := scanSignDigits_signed sgn hs m
  refine ⟨((DS.foldl (fun x c => 10 * x + digitVal c) (digitVal d) : Nat) : ℚ)
      * pow10 E,
    fun r hr => ?_⟩
  rw [scanUFloat_int d DS ('e' :: sgn :: (expDigits m ++ r)) hd hds
      (fun c hc => by
        simp only [List.head?_cons, Option.some_inj] at hc
        subst hc
        exact ⟨by decide, by decide⟩),
    scanAfterMantissa_exp _ _ E r (hE r fun c hc => (hr c hc).1)]

theorem scanUFloat_shape_exp_point (d : Char) (DS FR : Str) (sgn : Char)
    (hs : sgn = '+' ∨ sgn = '-') (m : Nat) (hd : isDigitC d = true)
    (hds : ∀ c ∈ DS, isDigitC c = true)
    (hfr : ∀ c ∈ FR, isDigitC c = true) :
    ∃ v : ℚ, ∀ r, TokStop r →
      scanUFloat ((d :: DS) ++ '.' :: (FR ++ 'e' :: sgn :: (expDigits m ++ r)))
        = some (v, r) := by
  obtain ⟨E, hE⟩ := scanSignDigits_signed sgn hs m
  refine ⟨(FR.foldl (fun p c => (p.1 + (digitVal c : ℚ) * p.2, p.2 / 10))
        (((DS.foldl (fun x c => 10 * x + digitVal c) (digitVal d) : Nat) : ℚ),
          (1 : ℚ) / 10)).1 * pow10 E,
    fun r hr => ?_⟩
  rw [scanUFloat_point d DS FR ('e' :: sgn :: (expDigits m ++ r)) hd hds hfr
      (fun c hc => by
        simp only [List.head?_cons, Option.some_inj] at hc
        subst hc
        decide),
    scanAfterMantissa_exp _ _ E r (hE r fun c hc => (hr c hc).1)]

theorem replicate_digits (k : Nat) :
    ∀ c ∈ List.replicate k '0', isDigitC c = true := by
  intro c hc
  rw [List.eq_of_mem_replicate hc]
  decide

theorem scanUFloat_gfmtPos (a : ℚ) :
    ∃ (v : ℚ) (d : Char) (s : Str),
      gfmtPos a = d :: s ∧ isDigitC d = true
      ∧ ∀ r, TokStop r → scanUFloat (gfmtPos a ++ r) = some (v, r) := by
  have hdig : ∀ c ∈ stripZeros (natChars (sig6 a).1), isDigitC c = true :=
    fun c hc => natChars_all_digits _ c (stripZeros_subset _ c hc)
  simp only [gfmtPos]
  by_cases h1 : -4 ≤ (sig6 a).2 ∧ (sig6 a).2 < 6
  · rw [if_pos h1]
    by_cases h2 : 0 ≤ (sig6 a).2
    · rw [if_pos h2]
      by_cases h3 : (stripZeros (natChars (sig6 a).1)).length
          ≤ ((sig6 a).2 + 1).toNat
      · rw [if_pos h3]
        cases hs : stripZeros (natChars (sig6 a).1) with
        | nil =>
            obtain ⟨k, hk⟩ : ∃ k, ((sig6 a).2 + 1).toNat = k + 1 :=
              ⟨((sig6 a).2 + 1).toNat - 1, by omega⟩
            obtain ⟨v, hv⟩ := scanUFloat_shape_int '0' (List.replicate k '0')
              (by decide) (replicate_digits k)
            refine ⟨v, '0', List.replicate k '0', ?_, by decide, ?_⟩
            · rw [hk]
              simp [List.replicate_succ]
            · intro r hr
              rw [hk]
              have := hv r hr
              simp only [List.cons_append, List.nil_append,
                List.replicate_succ, List.length_nil, Nat.sub_zero] at this ⊢
              exact this
        | cons d ds' =>
            have hd : isDigitC d = true :=
              hdig d (by rw [hs]; exact List.mem_cons_self _ _)
            have hds' : ∀ c ∈ ds', isDigitC c = true := fun c hc =>
              hdig c (by rw [hs]; exact List.mem_cons_of_mem d hc)
            obtain ⟨v, hv⟩ := scanUFloat_shape_int d
              (ds' ++ List.replicate
                (((sig6 a).2 + 1).toNat - (d :: ds').length) '0')
              hd (fun c hc => by
                rcases List.mem_append.mp hc with h | h
                · exact hds' c h
                · exact replicate_digits _ c h)
            refine ⟨v, d, ds' ++ List.replicate
                (((sig6 a).2 + 1).toNat - (d :: ds').length) '0',
              ?_, hd, ?_⟩
            · simp
            · intro r hr
              have := hv r hr
              simp only [List.cons_append, List.append_assoc] at this ⊢
              exact this
      · rw [if_neg h3]
        obtain ⟨k, hk⟩ : ∃ k, ((sig6 a).2 + 1).toNat = k + 1 :=
          ⟨((sig6 a).2 + 1).toNat - 1, by omega⟩
        cases hs : stripZeros (natChars (sig6 a).1) with
        | nil => rw [hs] at h3; simp at h3
        | cons d ds' =>
            have hd : isDigitC d = true :=
              hdig d (by rw [hs]; exact List.mem_cons_self _ _)
            have hds' : ∀ c ∈ ds', isDigitC c = true := fun c hc =>
              hdig c (by rw [hs]; exact List.mem_cons_of_mem d hc)
            obtain ⟨v, hv⟩ := scanUFloat_shape_point d (ds'.take k)
              (ds'.drop k) hd
              (fun c hc => hds' c (List.take_subset _ _ hc))
              (fun c hc => hds' c (List.drop_subset _ _ hc))
            refine ⟨v, d, ds'.take k ++ '.' :: ds'.drop k, ?_, hd, ?_⟩
            · rw [hk]
              simp [List.take_succ_cons, List.drop_succ_cons]
            · intro r hr
              rw [hk]
              have := hv r hr
              simp only [List.take_succ_cons, List.drop_succ_cons,
                List.cons_append, List.append_assoc, List.singleton_append,
                List.nil_append] at this ⊢
              exact this
    · rw [if_neg h2]
      obtain ⟨v, hv⟩ := scanUFloat_shape_point '0' []
        (List.replicate (-((sig6 a).2 + 1)).toNat '0'
          ++ stripZeros (natChars (sig6 a).1))
        (by decide) (by simp)
        (fun c hc => by
          rcases List.mem_append.mp hc with h | h
          · exact replicate_digits _ c h
          · exact hdig c h)
      refine ⟨v, '0', '.' :: (List.replicate (-((sig6 a).2 + 1)).toNat '0'
          ++ stripZeros (natChars (sig6 a).1)), rfl, by decide, ?_⟩
      intro r hr
      have := hv r hr
      simp only [List.cons_append, List.nil_append, List.append_assoc]
        at this ⊢
      exact this
  · rw [if_neg h1]
    cases hs : stripZeros (natChars (sig6 a).1) with
    | nil =>
        obtain ⟨v, hv⟩ := scanUFloat_shape_exp_int '0' []
          (if 0 ≤ (sig6 a).2 then '+' else '-')
          (by by_cases h : 0 ≤ (sig6 a).2 <;> simp [h]) (sig6 a).2.natAbs
          (by decide) (by simp)
        refine ⟨v, '0', 'e' :: (if 0 ≤ (sig6 a).2 then '+' else '-')
            :: expDigits (sig6 a).2.natAbs, ?_, by decide, ?_⟩
        · rfl
        · intro r hr
          have := hv r hr
          simp only [List.cons_append, List.nil_append, List.append_assoc]
            at this ⊢
          exact this
    | cons d ds' =>
        have hd : isDigitC d = true :=
          hdig d (by rw [hs]; exact List.mem_cons_self _ _)
        have hds' : ∀ c ∈ ds', isDigitC c = true := fun c hc =>
          hdig c (by rw [hs]; exact List.mem_cons_of_mem d hc)
        cases ds' with
        | nil =>
            obtain ⟨v, hv⟩ := scanUFloat_shape_exp_int d []
              (if 0 ≤ (sig6 a).2 then '+' else '-')
              (by by_cases h : 0 ≤ (sig6 a).2 <;> simp [h]) (sig6 a).2.natAbs
              hd (by simp)
            refine ⟨v, d, 'e' :: (if 0 ≤ (sig6 a).2 then '+' else '-')
                :: expDigits (sig6 a).2.natAbs, ?_, hd, ?_⟩
            · rfl
            · intro r hr
              have := hv r hr
              simp only [List.cons_append, List.nil_append, List.append_assoc]
                at this ⊢
              exact this
        | cons c2 ds2 =>
            have hc2 : isDigitC c2 = true :=
              hds' c2 (List.mem_cons_self _ _)
            have hds2 : ∀ c ∈ ds2, isDigitC c = true := fun c hc =>
              hds' c (List.mem_cons_of_mem c2 hc)
            obtain ⟨v, hv⟩ := scanUFloat_shape_exp_point d [] (c2 :: ds2)
              (if 0 ≤ (sig6 a).2 then '+' else '-')
              (by by_cases h : 0 ≤ (sig6 a).2 <;> simp [h]) (sig6 a).2.natAbs
              hd (by simp)
              (fun c hc => by
                rcases List.mem_cons.mp hc with rfl | h
                · exact hc2
                · exact hds2 c h)
            refine ⟨v, d, '.' :: c2 :: ds2 ++ 'e'
                :: (if 0 ≤ (sig6 a).2 then '+' else '-')
                :: expDigits (sig6 a).2.natAbs, ?_, hd, ?_⟩
            · rfl
            · intro r hr
              have := hv r hr
              simp only [List.cons_append, List.nil_append, List.append_assoc]
                at this ⊢
              exact this

theorem scanFloatTok_digit_head (sp : Str) (d : Char) (t : Str)
    (hsp : ∀ c ∈ sp, isSpaceC c = true) (hd : isDigitC d = true) :
    scanFloatTok (sp ++ d :: t) = scanUFloat (d :: t) := by
  have hdw : (sp ++ d :: t).dropWhile isSpaceC = d :: t := by
    rw [dropWhile_spaces sp _ hsp]
    simp [List.dropWhile_cons, (digit_facts hd).2.2.2.2.2.2]
  have h1 := (digit_facts hd).1
  have h2 := (digit_facts hd).2.1
  unfold scanFloatTok
  rw [hdw]
  split <;> simp_all

theorem scanFloatTok_neg_head (sp t : Str)
    (hsp : ∀ c ∈ sp, isSpaceC c = true) :
    scanFloatTok (sp ++ '-' :: t)
      = (scanUFloat t).map (fun p => (-p.1, p.2)) := by
  have hdw : (sp ++ '-' :: t).dropWhile isSpaceC = '-' :: t := by
    rw [dropWhile_spaces sp _ hsp]
    simp [List.dropWhile_cons, (by decide : isSpaceC '-' = false)]
  unfold scanFloatTok
  rw [hdw]
  split <;> simp_all

theorem scanFloatTok_gfmt_aux (q : ℚ) :
    ∃ v : ℚ, ∀ sp r, (∀ c ∈ sp, isSpaceC c = true) → TokStop r →
      scanFloatTok (sp ++ (gfmt q ++ r)) = some (v, r) := by
  by_cases hq0 : q = 0
  · have hg : gfmt q = ['0'] := by rw [gfmt, if_pos hq0]
    obtain ⟨v, hv⟩ := scanUFloat_shape_int '0' [] (by decide) (by simp)
    refine ⟨v, fun sp r hsp hr => ?_⟩
    rw [hg, List.singleton_append, scanFloatTok_digit_head sp '0' r hsp
      (by decide)]
    simpa using hv r hr
  · by_cases hqn : q < 0
    · have hg : gfmt q = '-' :: gfmtPos (-q) := by
        rw [gfmt, if_neg hq0, if_pos hqn]
      obtain ⟨v, d, sTl, hshape, hd, hscan⟩ := scanUFloat_gfmtPos (-q)
      refine ⟨-v, fun sp r hsp hr => ?_⟩
      rw [hg, List.cons_append, scanFloatTok_neg_head sp _ hsp,
        hscan r hr]
      rfl
    · have hg : gfmt q = gfmtPos q := by
        rw [gfmt, if_neg hq0, if_neg hqn]
      obtain ⟨v, d, sTl, hshape, hd, hscan⟩ := scanUFloat_gfmtPos q
      refine ⟨v, fun sp r hsp hr => ?_⟩
      rw [hg, hshape, List.cons_append,
        scanFloatTok_digit_head sp d (sTl ++ r) hsp hd,
        ← List.cons_append, ← hshape]
      exact hscan r hr

theorem scanFloatTok_gfmt (q : ℚ) (sp r : Str)
    (hsp : ∀ c ∈ sp, isSpaceC c = true) (hr : TokStop r) :
    scanFloatTok (sp ++ (gfmt q ++ r)) = some (gRound q, r) := by
  obtain ⟨v, hv⟩ := scanFloatTok_gfmt_aux q
  have h0 := hv [] [] (by simp) (fun c hc => by simp at hc)
  rw [List.nil_append, List.append_nil] at h0
  have hgr : gRound q = v := by unfold gRound; rw [h0]
  rw [hv sp r hsp hr, hgr]

theorem load_info_statsChars (t : Nat) (c p : Flashcard) :
    load_info t c (statsChars p)
      = { c with
          nquiz := p.nquiz
          n_contin_right := p.n_contin_right
          right_rate := gRound p.right_rate
          prev_time := t } := by
  have hsp4 : ∀ ch ∈ ([' ', ' ', ' ', ' '] : Str), isSpaceC ch = true := by
    decide
  have hsp1 : ∀ ch ∈ ([' '] : Str), isSpaceC ch = true := by decide
  have hsphd : ∀ (X : Str) ch, (([' '] : Str) ++ X).head? = some ch →
      isDigitC ch = false := fun X ch hch => by
    simp only [List.cons_append, List.nil_append, List.head?_cons,
      Option.some_inj] at hch
    subst hch
    decide
  have h1 : scanIntTok (statsChars p)
      = some (p.nquiz,
          [' '] ++ (intChars p.n_contin_right ++ ([' '] ++ (gfmt p.right_rate
            ++ ([' '] ++ (natChars p.prev_time ++ ([' ']
              ++ (natChars p.next_time ++ ['\n'])))))))) := by
    unfold statsChars
    simp only [List.append_assoc]
    exact scanIntTok_exact [' ', ' ', ' ', ' '] p.nquiz
      ([' '] ++ (intChars p.n_contin_right ++ ([' '] ++ (gfmt p.right_rate
        ++ ([' '] ++ (natChars p.prev_time ++ ([' ']
          ++ (natChars p.next_time ++ ['\n']))))))))
      hsp4 (hsphd _)
  have h2 : scanIntTok ([' '] ++ (intChars p.n_contin_right
        ++ ([' '] ++ (gfmt p.right_rate ++ ([' '] ++ (natChars p.prev_time
          ++ ([' '] ++ (natChars p.next_time ++ ['\n']))))))))
      = some (p.n_contin_right,
          [' '] ++ (gfmt p.right_rate ++ ([' '] ++ (natChars p.prev_time
            ++ ([' '] ++ (natChars p.next_time ++ ['\n'])))))) :=
    scanIntTok_exact _ _ _ hsp1 (hsphd _)
  have h3 : scanFloatTok ([' '] ++ (gfmt p.right_rate
        ++ ([' '] ++ (natChars p.prev_time ++ ([' ']
          ++ (natChars p.next_time ++ ['\n']))))))
      = some (gRound p.right_rate,
          [' '] ++ (natChars p.prev_time ++ ([' ']
            ++ (natChars p.next_time ++ ['\n'])))) :=
    scanFloatTok_gfmt _ _ _ hsp1 (fun ch hch => by
      simp only [List.cons_append, List.nil_append, List.head?_cons,
        Option.some_inj] at hch
      subst hch
      refine ⟨by decide, by decide, by decide, by decide⟩)
  simp only [load_info, h1, h2, h3]

theorem catAll_some (a : Str) (ls : List Str) :
    catAll (some a) ls = some (a ++ ls.flatten) := by
  induction ls generalizing a with
  | nil => simp [catAll]
  | cons l ls ih =>
      rw [catAll_cons]
      simp only [Option.getD_some]
      rw [ih]
      simp [List.append_assoc]

theorem catstr_extend (P : Str → Prop) (h : Option Str) (l : Str)
    (hh : h = none ∨ ∃ ls : List Str, h = some ls.flatten ∧ ∀ x ∈ ls, P x)
    (hl : P l) :
    ∃ ls : List Str, cat_string h l = ls.flatten ∧ ls ≠ []
      ∧ ∀ x ∈ ls, P x := by
  rcases hh with rfl | ⟨ls, rfl, hls⟩
  · refine ⟨[l], by simp [cat_string], by simp, ?_⟩
    intro x hx
    rw [List.mem_singleton.mp hx]
    exact hl
  · refine ⟨ls ++ [l], by simp [cat_string], by simp, ?_⟩
    intro x hx
    rcases List.mem_append.mp hx with hx | hx
    · exact hls x hx
    · rw [List.mem_singleton.mp hx]
      exact hl

theorem contentline_nl : ContentLine ['\n'] :=
  ⟨⟨[], rfl, by simp⟩, by decide, by decide, by decide, by decide, by decide,
    by decide⟩

theorem sanCard_text_eq (c c' : Flashcard) (h1 : c'.comment = c.comment)
    (h2 : c'.question = c.question) (h3 : c'.answer = c.answer)
    (h : SanCard c) : SanCard c' := by
  obtain ⟨⟨l1, e1, p1⟩, ⟨l2, e2, n2, p2⟩, ⟨l3, e3, n3, p3⟩⟩ := h
  exact ⟨⟨l1, by rw [h1, e1], p1⟩, ⟨l2, by rw [h2, e2], n2, p2⟩,
    ⟨l3, by rw [h3, e3], n3, p3⟩⟩

theorem preCard_text_eq (c c' : Flashcard) (h1 : c'.comment = c.comment)
    (h2 : c'.question = c.question) (h3 : c'.answer = c.answer)
    (h : PreCard c) : PreCard c' := by
  obtain ⟨g1, g2, g3⟩ := h
  refine ⟨?_, ?_, ?_⟩
  · rw [h1]; exact g1
  · rw [h2]; exact g2
  · rw [h3]; exact g3

theorem sanCard_fix (am : Nat → Nat) (t : Nat) (c : Flashcard)
    (hc : PreCard c) : SanCard (fix_flashcard am t c) := by
  obtain ⟨h1, h2, h3⟩ := hc
  refine ⟨?_, ?_, ?_⟩
  · rcases h1 with hna | ⟨ls, heq, _, hls⟩
    · exact ⟨[], by simp [fix_flashcard, hna], by simp⟩
    · exact ⟨ls, by simp [fix_flashcard, heq], hls⟩
  · rcases h2 with hna | ⟨ls, heq, hne, hls⟩
    · refine ⟨[['\n']], by simp [fix_flashcard, hna], by simp, ?_⟩
      intro x hx
      rw [List.mem_singleton.mp hx]
      exact contentline_nl
    · exact ⟨ls, by simp [fix_flashcard, heq], hne, hls⟩
  · rcases h3 with hna | ⟨ls, heq, hne, hls⟩
    · refine ⟨[['\n']], by simp [fix_flashcard, hna], by simp, ?_⟩
      intro x hx
      rw [List.mem_singleton.mp hx]
      exact contentline_nl
    · exact ⟨ls, by simp [fix_flashcard, heq], hne, hls⟩

theorem upd_card_san (id : Nat) (f : Flashcard → Flashcard)
    (cards : List (Nat × Flashcard))
    (hall : ∀ p ∈ cards, SanCard p.2)
    (hf : ∀ c, SanCard c → SanCard (f c)) :
    ∀ p ∈ upd_card id f cards, SanCard p.2 := by
  intro p hp
  unfold upd_card at hp
  obtain ⟨q, hq, hpq⟩ := List.mem_map.mp hp
  by_cases h : q.1 = id
  · rw [if_pos h] at hpq
    rw [← hpq]
    exact hf q.2 (hall q hq)
  · rw [if_neg h] at hpq
    rw [← hpq]
    exact hall q hq

theorem sanCard_hash_append (l : Str) (hl : HashLine l) (c : Flashcard)
    (hc : SanCard c) :
    SanCard { c with comment := some (cat_string c.comment l) } := by
  obtain ⟨⟨ls, e, p⟩, h2, h3⟩ := hc
  obtain ⟨ls2, e2, _, p2⟩ :=
    catstr_extend HashLine c.comment l (Or.inr ⟨ls, e, p⟩) hl
  exact ⟨⟨ls2, congrArg some e2, p2⟩, h2, h3⟩

theorem sanCard_q_append (l : Str) (hl : ContentLine l) (c : Flashcard)
    (hc : SanCard c) :
    SanCard { c with question := some (cat_string c.question l) } := by
  obtain ⟨h1, ⟨ls, e, _, p⟩, h3⟩ := hc
  obtain ⟨ls2, e2, n2, p2⟩ :=
    catstr_extend ContentLine c.question l (Or.inr ⟨ls, e, p⟩) hl
  exact ⟨h1, ⟨ls2, congrArg some e2, n2, p2⟩, h3⟩

theorem sanCard_a_append (l : Str) (hl : ContentLine l) (c : Flashcard)
    (hc : SanCard c) :
    SanCard { c with answer := some (cat_string c.answer l) } := by
  obtain ⟨h1, h2, ls, e, _, p⟩ := hc
  obtain ⟨ls2, e2, n2, p2⟩ :=
    catstr_extend ContentLine c.answer l (Or.inr ⟨ls, e, p⟩) hl
  exact ⟨h1, h2, ls2, congrArg some e2, n2, p2⟩

theorem parseLine_inv (am : Nat → Nat) (t : Nat) (st : PState) (l : Str)
    (st' : PState) (hst : InvState st) (hl : NlLine l)
    (h : parseLine am t st l = some st') : InvState st' := by
  obtain ⟨hh, hcards, hfresh⟩ := hst
  have hh2 : st.hcomment = none
      ∨ ∃ ls : List Str, st.hcomment = some ls.flatten
          ∧ ∀ x ∈ ls, HashLine x :=
    hh.imp id fun g => by
      obtain ⟨ls, e, _, p⟩ := g
      exact ⟨ls, e, p⟩
  unfold parseLine at h
  by_cases b1 : (startsHash l && st.cards.isEmpty) = true
  · rw [if_pos b1] at h
    simp only [Option.some_inj] at h
    subst h
    have b1' : startsHash l = true ∧ st.cards.isEmpty = true := by simpa using b1
    have hhl : HashLine l := ⟨b1'.1, hl⟩
    obtain ⟨ls, he, hne, hP⟩ := catstr_extend HashLine st.hcomment l hh2 hhl
    exact ⟨Or.inr ⟨ls, congrArg some he, hne, hP⟩, hcards, hfresh⟩
  · rw [if_neg b1] at h
    by_cases b2 : starts2 '>' '>' l = true
    · rw [if_pos b2] at h
      simp only [Option.some_inj] at h
      subst h
      refine ⟨hh, hcards, ?_⟩
      intro c hc
      have hc2 : FcRef.fresh create_flashcard = FcRef.fresh c := hc
      injection hc2 with hc3
      subst hc3
      exact ⟨Or.inl rfl, Or.inl rfl, Or.inl rfl⟩
    · rw [if_neg b2] at h
      by_cases b3 : startsHash l = true
      · rw [if_pos b3] at h
        unfold mutate_fc at h
        cases hfc : st.fc with
        | null => rw [hfc] at h; simp at h
        | fresh c =>
            rw [hfc] at h
            simp only [Option.some_inj] at h
            subst h
            refine ⟨hh, hcards, ?_⟩
            intro c' hc'
            have hc2 : FcRef.fresh
                { c with comment := some (cat_string c.comment l) }
                = FcRef.fresh c' := hc'
            injection hc2 with hc3
            subst hc3
            obtain ⟨g1, g2, g3⟩ := hfresh c hfc
            have gw : c.comment = none
                ∨ ∃ ls : List Str, c.comment = some ls.flatten
                    ∧ ∀ x ∈ ls, HashLine x :=
              g1.imp id fun g => by
                obtain ⟨ls, e, _, p⟩ := g
                exact ⟨ls, e, p⟩
            obtain ⟨ls, he, hne, hP⟩ :=
              catstr_extend HashLine c.comment l gw ⟨b3, hl⟩
            exact ⟨Or.inr ⟨ls, congrArg some he, hne, hP⟩, g2, g3⟩
        | added id =>
            rw [hfc] at h
            simp only [Option.some_inj] at h
            subst h
            refine ⟨hh, ?_, ?_⟩
            · exact upd_card_san id _ st.cards hcards fun c hc =>
                sanCard_hash_append l ⟨b3, hl⟩ c hc
            · intro c hc
              have hc2 : FcRef.added id = FcRef.fresh c := hc
              simp at hc2
      · rw [if_neg b3] at h
        by_cases b4 : starts2 'Q' ':' l = true
        · rw [if_pos b4] at h
          simp only [Option.some_inj] at h
          subst h
          exact ⟨hh, hcards, hfresh⟩
        · rw [if_neg b4] at h
          by_cases b5 : starts2 'A' ':' l = true
          · rw [if_pos b5] at h
            simp only [Option.some_inj] at h
            subst h
            exact ⟨hh, hcards, hfresh⟩
          · rw [if_neg b5] at h
            by_cases b6 : starts2 'S' ':' l = true
            · rw [if_pos b6] at h
              simp only [Option.some_inj] at h
              subst h
              exact ⟨hh, hcards, hfresh⟩
            · rw [if_neg b6] at h
              by_cases b7 : starts2 '<' '<' l = true
              · rw [if_pos b7] at h
                cases hfc : st.fc with
                | null => rw [hfc] at h; simp at h
                | added id => rw [hfc] at h; simp at h
                | fresh c =>
                    rw [hfc] at h
                    simp only [Option.some_inj] at h
                    subst h
                    refine ⟨hh, ?_, ?_⟩
                    · intro p hp
                      rcases mem_add_tagged hp with rfl | hp
                      · exact sanCard_fix am t c (hfresh c hfc)
                      · exact hcards p hp
                    · intro c' hc'
                      have hc2 : FcRef.added st.nextId = FcRef.fresh c' := hc'
                      simp at hc2
              · rw [if_neg b7] at h
                by_cases b8 : st.stage = Stage.question
                · rw [if_pos b8] at h
                  have hsh : startsHash l = false := by simpa using b3
                  have w2 : starts2 '>' '>' l = false := by simpa using b2
                  have w4 : starts2 'Q' ':' l = false := by simpa using b4
                  have w5 : starts2 'A' ':' l = false := by simpa using b5
                  have w6 : starts2 'S' ':' l = false := by simpa using b6
                  have w7 : starts2 '<' '<' l = false := by simpa using b7
                  have hcl : ContentLine l := ⟨hl, hsh, w2, w4, w5, w6, w7⟩
                  unfold mutate_fc at h
                  cases hfc : st.fc with
                  | null => rw [hfc] at h; simp at h
                  | fresh c =>
                      rw [hfc] at h
                      simp only [Option.some_inj] at h
                      subst h
                      refine ⟨hh, hcards, ?_⟩
                      intro c' hc'
                      have hc2 : FcRef.fresh
                          { c with question := some (cat_string c.question l) }
                          = FcRef.fresh c' := hc'
                      injection hc2 with hc3
                      subst hc3
                      obtain ⟨g1, g2, g3⟩ := hfresh c hfc
                      have gw : c.question = none
                          ∨ ∃ ls : List Str, c.question = some ls.flatten
                              ∧ ∀ x ∈ ls, ContentLine x :=
                        g2.imp id fun g => by
                          obtain ⟨ls, e, _, p⟩ := g
                          exact ⟨ls, e, p⟩
                      obtain ⟨ls, he, hne, hP⟩ :=
                        catstr_extend ContentLine c.question l gw hcl
                      exact ⟨g1, Or.inr ⟨ls, congrArg some he, hne, hP⟩, g3⟩
                  | added id =>
                      rw [hfc] at h
                      simp only [Option.some_inj] at h
                      subst h
                      refine ⟨hh, ?_, ?_⟩
                      · exact upd_card_san id _ st.cards hcards fun c hc =>
                          sanCard_q_append l hcl c hc
                      · intro c hc
                        have hc2 : FcRef.added id = FcRef.fresh c := hc
                        simp at hc2
                · rw [if_neg b8] at h
                  by_cases b9 : st.stage = Stage.answer
                  · rw [if_pos b9] at h
                    have hsh : startsHash l = false := by simpa using b3
                    have w2 : starts2 '>' '>' l = false := by simpa using b2
                    have w4 : starts2 'Q' ':' l = false := by simpa using b4
                    have w5 : starts2 'A' ':' l = false := by simpa using b5
                    have w6 : starts2 'S' ':' l = false := by simpa using b6
                    have w7 : starts2 '<' '<' l = false := by simpa using b7
                    have hcl : ContentLine l := ⟨hl, hsh, w2, w4, w5, w6, w7⟩
                    unfold mutate_fc at h
                    cases hfc : st.fc with
                    | null => rw [hfc] at h; simp at h
                    | fresh c =>
                        rw [hfc] at h
                        simp only [Option.some_inj] at h
                        subst h
                        refine ⟨hh, hcards, ?_⟩
                        intro c' hc'
                        have hc2 : FcRef.fresh
                            { c with answer := some (cat_string c.answer l) }
                            = FcRef.fresh c' := hc'
                        injection hc2 with hc3
                        subst hc3
                        obtain ⟨g1, g2, g3⟩ := hfresh c hfc
                        have gw : c.answer = none
                            ∨ ∃ ls : List Str, c.answer = some ls.flatten
                                ∧ ∀ x ∈ ls, ContentLine x :=
                          g3.imp id fun g => by
                            obtain ⟨ls, e, _, p⟩ := g
                            exact ⟨ls, e, p⟩
                        obtain ⟨ls, he, hne, hP⟩ :=
                          catstr_extend ContentLine c.answer l gw hcl
                        exact ⟨g1, g2, Or.inr ⟨ls, congrArg some he, hne, hP⟩⟩
                    | added id =>
                        rw [hfc] at h
                        simp only [Option.some_inj] at h
                        subst h
                        refine ⟨hh, ?_, ?_⟩
                        · exact upd_card_san id _ st.cards hcards fun c hc =>
                            sanCard_a_append l hcl c hc
                        · intro c hc
                          have hc2 : FcRef.added id = FcRef.fresh c := hc
                          simp at hc2
                  · rw [if_neg b9] at h
                    by_cases b10 : st.stage = Stage.statistics
                    · rw [if_pos b10] at h
                      unfold mutate_fc at h
                      cases hfc : st.fc with
                      | null => rw [hfc] at h; simp at h
                      | fresh c =>
                          rw [hfc] at h
                          simp only [Option.some_inj] at h
                          subst h
                          refine ⟨hh, hcards, ?_⟩
                          intro c' hc'
                          have hc2 : FcRef.fresh (load_info t c l) = FcRef.fresh c' := hc'
                          injection hc2 with hc3
                          subst hc3
                          obtain ⟨e1, e2, e3⟩ := load_info_text t c l
                          exact preCard_text_eq c _ e1 e2 e3 (hfresh c hfc)
                      | added id =>
                          rw [hfc] at h
                          simp only [Option.some_inj] at h
                          subst h
                          refine ⟨hh, ?_, ?_⟩
                          · exact upd_card_san id _ st.cards hcards fun c hc =>
                              sanCard_text_eq c _ (load_info_text t c l).1
                                (load_info_text t c l).2.1 (load_info_text t c l).2.2 hc
                          · intro c hc
                            have hc2 : FcRef.added id = FcRef.fresh c := hc
                            simp at hc2
                    · rw [if_neg b10] at h
                      simp only [Option.some_inj] at h
                      subst h
                      exact ⟨hh, hcards, hfresh⟩

theorem runP_inv (am : Nat → Nat) (t : Nat) (ls : List Str) :
    ∀ (st st' : PState), InvState st → (∀ l ∈ ls, NlLine l) →
      runP am t st ls = some st' → InvState st' := by
  induction ls with
  | nil =>
      intro st st' hst _ h
      simp only [runP, Option.some_inj] at h
      subst h
      exact hst
  | cons l ls ih =>
      intro st st' hst hnl h
      rw [runP_cons] at h
      cases hp : parseLine am t st l with
      | none => rw [hp] at h; simp at h
      | some st1 =>
          rw [hp, Option.some_bind] at h
          exact ih st1 st'
            (parseLine_inv am t st l st1 hst (hnl l (List.mem_cons_self _ _)) hp)
            (fun l' hl' => hnl l' (List.mem_cons_of_mem l hl')) h

theorem load_sanitized (am : Nat → Nat) (t : Nat) (x : Str)
    (hx : x = [] ∨ ∃ y, x = y ++ ['\n']) (r : ParseResult)
    (h : load_flashcard am t x = some r) : SanResult r := by
  unfold load_flashcard at h
  cases hst : runP am t initPState (toLines x) with
  | none => rw [hst] at h; simp at h
  | some st =>
      rw [hst] at h
      simp only [Option.map_some', Option.some_inj] at h
      subst h
      have hinv : InvState st :=
        runP_inv am t (toLines x) initPState st
          ⟨Or.inl rfl, by simp [initPState], by
            intro c hc
            simp [initPState] at hc⟩
          (toLines_all_nl x hx) hst
      refine ⟨hinv.1, ?_⟩
      intro c hc
      obtain ⟨p, hp, hpc⟩ := List.mem_map.mp hc
      rw [← hpc]
      exact hinv.2.1 p hp

theorem gfmtPos_chars (a : ℚ) :
    ∀ x ∈ gfmtPos a, isDigitC x = true ∨ x = '.' ∨ x = 'e' ∨ x = '+'
      ∨ x = '-' := by
  have hdig : ∀ x ∈ stripZeros (natChars (sig6 a).1), isDigitC x = true :=
    fun x hx => natChars_all_digits _ x (stripZeros_subset _ x hx)
  have hexp : ∀ x ∈ expDigits (sig6 a).2.natAbs, isDigitC x = true := by
    obtain ⟨d1, ds1, hed, hd1, hds1⟩ := expDigits_shape (sig6 a).2.natAbs
    rw [hed]
    intro x hx
    rcases List.mem_cons.mp hx with rfl | hx
    · exact hd1
    · exact hds1 x hx
  intro x hx
  simp only [gfmtPos] at hx
  by_cases h1 : -4 ≤ (sig6 a).2 ∧ (sig6 a).2 < 6
  · rw [if_pos h1] at hx
    by_cases h2 : 0 ≤ (sig6 a).2
    · rw [if_pos h2] at hx
      by_cases h3 : (stripZeros (natChars (sig6 a).1)).length
          ≤ ((sig6 a).2 + 1).toNat
      · rw [if_pos h3] at hx
        rcases List.mem_append.mp hx with hx | hx
        · exact Or.inl (hdig x hx)
        · rw [List.eq_of_mem_replicate hx]
          exact Or.inl (by decide)
      · rw [if_neg h3] at hx
        rcases List.mem_append.mp hx with hx | hx
        · rcases List.mem_append.mp hx with hx | hx
          · exact Or.inl (hdig x (List.take_subset _ _ hx))
          · rw [List.mem_singleton.mp hx]
            exact Or.inr (Or.inl rfl)
        · exact Or.inl (hdig x (List.drop_subset _ _ hx))
    · rw [if_neg h2] at hx
      rcases List.mem_cons.mp hx with rfl | hx
      · exact Or.inl (by decide)
      rcases List.mem_cons.mp hx with rfl | hx
      · exact Or.inr (Or.inl rfl)
      rcases List.mem_append.mp hx with hx | hx
      · rw [List.eq_of_mem_replicate hx]
        exact Or.inl (by decide)
      · exact Or.inl (hdig x hx)
  · rw [if_neg h1] at hx
    rcases List.mem_append.mp hx with hx | hx
    · cases hs : stripZeros (natChars (sig6 a).1) with
      | nil =>
          rw [hs] at hx
          rw [List.mem_singleton.mp hx]
          exact Or.inl (by decide)
      | cons d ds' =>
          have hd : isDigitC d = true :=
            hdig d (by rw [hs]; exact List.mem_cons_self _ _)
          have hds' : ∀ y ∈ ds', isDigitC y = true := fun y hy =>
            hdig y (by rw [hs]; exact List.mem_cons_of_mem d hy)
          cases ds' with
          | nil =>
              rw [hs] at hx
              rw [List.mem_singleton.mp hx]
              exact Or.inl hd
          | cons c2 ds2 =>
              rw [hs] at hx
              rcases List.mem_cons.mp hx with rfl | hx
              · exact Or.inl hd
              rcases List.mem_cons.mp hx with rfl | hx
              · exact Or.inr (Or.inl rfl)
              · exact Or.inl (hds' x hx)
    · rcases List.mem_cons.mp hx with rfl | hx
      · exact Or.inr (Or.inr (Or.inl rfl))
      rcases List.mem_cons.mp hx with rfl | hx
      · by_cases h2 : 0 ≤ (sig6 a).2
        · rw [if_pos h2]
          exact Or.inr (Or.inr (Or.inr (Or.inl rfl)))
        · rw [if_neg h2]
          exact Or.inr (Or.inr (Or.inr (Or.inr rfl)))
      · exact Or.inl (hexp x hx)

theorem gfmt_no_nl (q : ℚ) : '\n' ∉ gfmt q := by
  unfold gfmt
  by_cases h0 : q = 0
  · rw [if_pos h0]
    simp
  · rw [if_neg h0]
    by_cases hn : q < 0
    · rw [if_pos hn]
      intro hmem
      rcases List.mem_cons.mp hmem with h | h
      · exact absurd h (by decide)
      · rcases gfmtPos_chars (-q) _ h with h | h | h | h | h
        · exact absurd h (by decide)
        all_goals exact absurd h (by decide)
    · rw [if_neg hn]
      intro hmem
      rcases gfmtPos_chars q _ hmem with h | h | h | h | h
      · exact absurd h (by decide)
      all_goals exact absurd h (by decide)

theorem natChars_no_nl (n : Nat) : '\n' ∉ natChars n :=
  fun h => absurd (natChars_all_digits n _ h) (by decide)

theorem intChars_no_nl (z : Int) : '\n' ∉ intChars z := by
  unfold intChars
  by_cases hz : z < 0
  · rw [if_pos hz]
    intro h
    rcases List.mem_cons.mp h with h | h
    · exact absurd h (by decide)
    · exact natChars_no_nl _ h
  · rw [if_neg hz]
    exact natChars_no_nl _

theorem statsChars_content (p : Flashcard) : ContentLine (statsChars p) := by
  refine ⟨?_, rfl, rfl, rfl, rfl, rfl, rfl⟩
  refine ⟨[' ', ' ', ' ', ' '] ++ intChars p.nquiz ++ [' ']
      ++ intChars p.n_contin_right ++ [' '] ++ gfmt p.right_rate ++ [' ']
      ++ natChars p.prev_time ++ [' '] ++ natChars p.next_time, rfl, ?_⟩
  intro hmem
  simp only [List.append_assoc, List.mem_append] at hmem
  rcases hmem with h | h | h | h | h | h | h | h | h | h
  · exact absurd h (by decide)
  · exact intChars_no_nl _ h
  · exact absurd h (by decide)
  · exact intChars_no_nl _ h
  · exact absurd h (by decide)
  · exact gfmt_no_nl _ h
  · exact absurd h (by decide)
  · exact natChars_no_nl _ h
  · exact absurd h (by decide)
  · exact natChars_no_nl _ h

theorem cards_blocks (cards : List Flashcard)
    (hall : ∀ c ∈ cards, SanCard c) :
    ∃ bs : List BlockDesc,
      List.Forall₂ (fun b c => DescribesCard b c ∧ b.ql ≠ [] ∧ b.al ≠ [])
        bs cards := by
  induction cards with
  | nil => exact ⟨[], List.Forall₂.nil⟩
  | cons c cs ih =>
      obtain ⟨bs, hbs⟩ := ih fun c' hc' => hall c' (List.mem_cons_of_mem _ hc')
      obtain ⟨⟨cl, e1, p1⟩, ⟨ql, e2, n2, p2⟩, ⟨al, e3, n3, p3⟩⟩ :=
        hall c (List.mem_cons_self _ _)
      refine ⟨⟨cl, ql, al, [statsChars c]⟩ :: bs,
        List.Forall₂.cons ⟨⟨e1, e2, e3, rfl, p1, p2, p3, ?_⟩, n2, n3⟩ hbs⟩
      intro l hl
      rw [List.mem_singleton.mp hl]
      exact statsChars_content c

theorem forall₂_left_mem {R : BlockDesc → Flashcard → Prop}
    {P : BlockDesc → Prop} (h : ∀ b c, R b c → P b) :
    ∀ {bs : List BlockDesc} {cards : List Flashcard},
      List.Forall₂ R bs cards → ∀ b ∈ bs, P b := by
  intro bs cards hf
  induction hf with
  | nil =>
      intro b hb
      simp at hb
  | cons hbc _ ih =>
      intro b hb
      rcases List.mem_cons.mp hb with rfl | hb
      · exact h _ _ hbc
      · exact ih b hb

theorem serializeCard_blockLines (b : BlockDesc) (c : Flashcard)
    (hd : DescribesCard b c) :
    serializeCard c = some (blockLines b).flatten := by
  obtain ⟨hcom, hq, ha, hsl, hok⟩ := hd
  unfold serializeCard
  rw [hcom, hq, ha]
  simp only [blockLines, hsl, List.flatten_cons, List.flatten_append,
    List.flatten_nil, List.cons_append, List.nil_append, List.append_assoc,
    List.append_nil, Option.some_inj]

theorem mapM_serialize (bs : List BlockDesc) (cards : List Flashcard)
    (h : List.Forall₂ (fun b c => DescribesCard b c ∧ b.ql ≠ [] ∧ b.al ≠ [])
      bs cards) :
    cards.mapM serializeCard
      = some (bs.map fun b => (blockLines b).flatten) := by
  induction h with
  | nil => rfl
  | cons hbc _ ih =>
      simp only [List.mapM_cons, serializeCard_blockLines _ _ hbc.1, ih,
        Option.pure_def, Option.bind_eq_bind, Option.some_bind, List.map_cons]

theorem blockCard_reparsed (am : Nat → Nat) (t : Nat) (b : BlockDesc)
    (c : Flashcard) (hd : DescribesCard b c) (hql : b.ql ≠ [])
    (hal : b.al ≠ []) :
    blockCard am t b false = reparsedStats am t c
    ∧ blockCard am t b true = reparsedStats am t { c with comment := some [] }
    := by
  obtain ⟨hcom, hq, ha, hsl, hok⟩ := hd
  have hCq : catAll none b.ql = some b.ql.flatten := by
    rw [catAll_eq none b.ql hql]
    simp
  have hCa : catAll none b.al = some b.al.flatten := by
    rw [catAll_eq none b.al hal]
    simp
  have hCc : (catAll none b.cl).getD [] = b.cl.flatten := by
    cases hbc : b.cl with
    | nil => simp [catAll]
    | cons l ls =>
        rw [catAll_eq none _ (by simp)]
        simp
  obtain ⟨cc, cq, ca, cn, cr, crr, cp, cnx⟩ := c
  simp only [] at hcom hq ha
  constructor
  · unfold blockCard
    rw [hsl]
    simp only [List.foldl_cons, List.foldl_nil, Bool.false_eq_true, if_false]
    rw [load_info_statsChars]
    unfold fix_flashcard reparsedStats
    simp [hCq, hCa, hCc, hcom, hq, ha]
  · unfold blockCard
    rw [hsl]
    simp only [List.foldl_cons, List.foldl_nil, if_true]
    rw [load_info_statsChars]
    unfold fix_flashcard reparsedStats
    simp [hCq, hCa, hCc, hcom, hq, ha]

theorem blocks_map_reparsed (am : Nat → Nat) (t : Nat)
    {bs : List BlockDesc} {cards : List Flashcard}
    (h : List.Forall₂ (fun b c => DescribesCard b c ∧ b.ql ≠ [] ∧ b.al ≠ [])
      bs cards) :
    bs.map (fun b => blockCard am t b false)
      = cards.map (reparsedStats am t) := by
  induction h with
  | nil => rfl
  | cons hbc _ ih =>
      simp only [List.map_cons, ih,
        (blockCard_reparsed am t _ _ hbc.1 hbc.2.1 hbc.2.2).1]

theorem blocks_to_reparsed (am : Nat → Nat) (t : Nat)
    {bs : List BlockDesc} {cards : List Flashcard}
    (h : List.Forall₂ (fun b c => DescribesCard b c ∧ b.ql ≠ [] ∧ b.al ≠ [])
      bs cards) :
    blockCards am t bs
      = (clearFirstComment cards).map (reparsedStats am t) := by
  cases h with
  | nil => rfl
  | cons hbc hrest =>
      simp only [blockCards, clearFirstComment, List.map_cons,
        (blockCard_reparsed am t _ _ hbc.1 hbc.2.1 hbc.2.2).2,
        blocks_map_reparsed am t hrest]

theorem headCl_headComment
    {bs : List BlockDesc} {cards : List Flashcard}
    (h : List.Forall₂ (fun b c => DescribesCard b c ∧ b.ql ≠ [] ∧ b.al ≠ [])
      bs cards) :
    (headCl bs).flatten = headComment cards := by
  cases h with
  | nil => rfl
  | cons hbc _ =>
      simp only [headCl, headComment, hbc.1.1, Option.getD_some]

theorem flatten_map_flatten (bs : List BlockDesc) :
    (bs.map fun b => (blockLines b).flatten).flatten
      = ((bs.map blockLines).flatten).flatten := by
  induction bs with
  | nil => rfl
  | cons b bs ih =>
      simp only [List.map_cons, List.flatten_cons, List.flatten_append, ih]

/-- C9 (amended): one save-and-reload cycle is not the identity.  For any
newline-terminated input whose parse succeeds and whose save succeeds,
reloading the saved bytes yields: a header whose comment is the old header
comment followed by the first-listed record's comment (which migrates), and
the records with the first one's comment emptied, every accuracy replaced by
its `%g`-print / `%lf`-scan round-trip, both review times restamped from the
new load time, and the order recomputed by the insertion sort. -/
theorem c9_amended (am am' : Nat → Nat) (t t' : Nat) (x : Str)
    (hx : x = [] ∨ ∃ y, x = y ++ ['\n'])
    (r1 : ParseResult) (y1 : Str)
    (h1 : load_flashcard am t x = some r1)
    (h2 : update_data_file r1 = some y1) :
    load_flashcard am' t' y1
      = some ⟨{ create_flashcard with
                comment := some (r1.header.comment.getD []
                  ++ headComment r1.cards) },
          sort_flashcard t' ((clearFirstComment r1.cards).map
            (reparsedStats am' t'))⟩ := by
  have hsan := load_sanitized am t x hx r1 h1
  unfold update_data_file at h2
  cases hhc : r1.header.comment with
  | none =>
      rw [hhc] at h2
      simp at h2
  | some hstr =>
      rw [hhc] at h2
      have hH : ∃ H : List Str, hstr = H.flatten ∧ H ≠ []
          ∧ ∀ l ∈ H, HashLine l := by
        rcases hsan.1 with hnone | ⟨ls, he, hne, hls⟩
        · rw [hhc] at hnone
          simp at hnone
        · rw [hhc] at he
          exact ⟨ls, by injection he, hne, hls⟩
      obtain ⟨H, rfl, hHne, hHlines⟩ := hH
      obtain ⟨bs, hbs⟩ := cards_blocks r1.cards hsan.2
      rw [mapM_serialize bs r1.cards hbs] at h2
      simp only [Option.map_some', Option.some_inj] at h2
      have hy : y1 = (H ++ (bs.map blockLines).flatten).flatten := by
        rw [← h2, List.flatten_append, flatten_map_flatten]
      rw [hy, load_assembled am' t' H bs hHlines
        (forall₂_left_mem (fun b c h => h.1.2.2.2.2) hbs),
        blocks_to_reparsed am' t' hbs, catAll_eq none H hHne, catAll_some,
        headCl_headComment hbs]
      simp

/-- C9 (amended, witness): the save-and-reload characterization at a concrete
input — a file holding only the header comment line `#h`. -/
theorem c9_amended_witness :
    load_flashcard (fun n => n + 2) 7 ['#', 'h', '\n']
      = some ⟨{ create_flashcard with comment := some ['#', 'h', '\n'] },
          []⟩ :=
  c9_amended (fun n => n + 1) (fun n => n + 2) 3 7 ['#', 'h', '\n']
    (Or.inr ⟨['#', 'h'], rfl⟩)
    ⟨{ create_flashcard with comment := some ['#', 'h', '\n'] }, []⟩
    ['#', 'h', '\n'] (by rfl) (by rfl)

end GF
